import Mathlib

/-!
Verification development for a small shortest-path code base consisting of two
Python modules: a generic Dijkstra simulator (`dijkstra.py`, with class `Grafo`
and functions `dijkstra` and `reconstruir_camino`) and a hospital-network
variant (`dijkstra_hospitales.py`, with class `RedHospitalaria` and functions
`dijkstra`, `reconstruir_ruta` and `menu_calcular`).

Modelling conventions, used throughout:

* Vertices are strings; edge weights are natural numbers (the integer instance
  of the code's "non-negative numeric weight"; floating-point weights are out
  of scope of this development).
* Tentative distances live in `ℕ∞`, with `⊤` playing the role of `math.inf`.
* Python dictionaries are modelled as association lists with first-key-wins
  lookup (`lookupA`), insertion-order preservation and in-place value update
  (`dictModify`), exactly as `dict` behaves for the keys the code uses.
  The `distancias` / `predecesores` dictionaries inside a run of `dijkstra`
  are keyed by the fixed vertex set for the whole run, so they are modelled as
  total maps `V → ℕ∞` and `V → Option V`; `mkPrevDict` recovers the concrete
  dictionary (with its key set) that the run returns.
* `heapq` is a min-heap of `(distancia, nodo)` tuples ordered lexicographically
  (Python tuple order, with string order on names); the only observable of the
  heap in this program is "pop the least entry", so the heap is modelled as the
  multiset of its entries (a list) and `popMin` removes one least entry.
* The `while cola_prioridad:` loop is modelled by iterating the single-step
  function `step` with an explicitly sufficient amount of fuel
  (`fuelFor`); `step_mu` below proves that the measure
  `heap size + potencial` strictly decreases at every iteration, so the fuel
  never runs out and the loop stops exactly when the heap is empty.
* Both Python files contain the same algorithm (the hospital variant only adds
  a textual log, which does not influence the state), so a single engine
  (`step` / `dijkstraLoopFuel` / `dijkstraState`) is defined once and wrapped
  twice: `dijkstra` for `Grafo` and `dijkstraHosp` for `RedHospitalaria`.
-/

abbrev V := String

abbrev AdjList := List (V × List (V × ℕ))

/-- Python `dict` read access `d[k]`: the (unique) binding of the key, if any. -/
def lookupA {α : Type} : List (V × α) → V → Option α
  | [], _ => none
  | (k', v) :: rest, k => if k' = k then some v else lookupA rest k

/-- Python in-place modification `d[k].append(...)` on the binding of `k`;
a missing key leaves the list unchanged (the code only modifies present keys). -/
def dictModify {α : Type} : List (V × α) → V → (α → α) → List (V × α)
  | [], _, _ => []
  | (k', v) :: rest, k, f =>
      if k' = k then (k', f v) :: rest else (k', v) :: dictModify rest k f

/-- `self.aristas.get(vertice, [])` / `self.adyacencia.get(nodo, [])`. -/
def vecinosA (A : AdjList) (v : V) : List (V × ℕ) := (lookupA A v).getD []

/-- Dict assignment on a fixed key set, as a pointwise update of a total map. -/
def upd {α : Type} (f : V → α) (k : V) (x : α) : V → α :=
  fun v => if v = k then x else f v

/-! ### `dijkstra.py`: class `Grafo` -/

/-- `Grafo`: a vertex set (`self.vertices`, a Python `set`, modelled as a list
up to membership) and an adjacency dictionary (`self.aristas`). -/
structure Grafo where
  vertices : List V
  aristas : AdjList

/-- `Grafo()` -/
def Grafo.vacio : Grafo := ⟨[], []⟩

/-- `Grafo.agregar_vertice`. -/
def Grafo.agregar_vertice (g : Grafo) (v : V) : Grafo :=
  { vertices := if v ∈ g.vertices then g.vertices else g.vertices ++ [v]
    aristas := if (lookupA g.aristas v).isSome then g.aristas else g.aristas ++ [(v, [])] }

/-- `Grafo.agregar_arista`: ensure both endpoints exist, then append the edge
to both adjacency lists (undirected). -/
def Grafo.agregar_arista (g : Grafo) (origen destino : V) (peso : ℕ) : Grafo :=
  let g1 := (g.agregar_vertice origen).agregar_vertice destino
  let a1 := dictModify g1.aristas origen (fun l => l ++ [(destino, peso)])
  let a2 := dictModify a1 destino (fun l => l ++ [(origen, peso)])
  { g1 with aristas := a2 }

/-- `Grafo.obtener_vecinos`. -/
def Grafo.obtener_vecinos (g : Grafo) (v : V) : List (V × ℕ) := vecinosA g.aristas v

/-- Well-formedness of a `Grafo` as built through `agregar_vertice` /
`agregar_arista`: adjacency keys and all recorded neighbours are vertices. -/
def Grafo.WF (g : Grafo) : Prop :=
  ∀ p ∈ g.aristas, p.1 ∈ g.vertices ∧ ∀ q ∈ p.2, q.1 ∈ g.vertices

instance (g : Grafo) : Decidable g.WF := by unfold Grafo.WF; infer_instance

/-! ### `dijkstra_hospitales.py`: class `RedHospitalaria` -/

/-- Value stored in `self.nodos`: `{'tipo': ..., 'info': ...}`. -/
structure Nodo where
  tipo : String
  info : String
deriving DecidableEq

/-- `RedHospitalaria`: the node dictionary and the adjacency dictionary. -/
structure RedHospitalaria where
  nodos : List (V × Nodo)
  adyacencia : AdjList
deriving DecidableEq

/-- `RedHospitalaria()` -/
def RedHospitalaria.vacia : RedHospitalaria := ⟨[], []⟩

/-- `RedHospitalaria.agregar_lugar` (a no-op when the name already exists). -/
def RedHospitalaria.agregar_lugar (red : RedHospitalaria) (nombre : V)
    (tipo : String) (info : String) : RedHospitalaria :=
  if (lookupA red.nodos nombre).isSome then red
  else { nodos := red.nodos ++ [(nombre, ⟨tipo, info⟩)]
         adyacencia := red.adyacencia ++ [(nombre, [])] }

/-- `RedHospitalaria.vecinos`. -/
def RedHospitalaria.vecinos (red : RedHospitalaria) (nodo : V) : List (V × ℕ) :=
  vecinosA red.adyacencia nodo

/-- `RedHospitalaria.agregar_ruta`: ensure both places exist (with the default
`tipo="colonia"`, `info=""`), then append each direction unless that endpoint
already lists the other as a neighbour (the two guards run sequentially on the
current state, as in the Python code). -/
def RedHospitalaria.agregar_ruta (red : RedHospitalaria) (origen destino : V)
    (minutos : ℕ) : RedHospitalaria :=
  let red2 := (red.agregar_lugar origen "colonia" "").agregar_lugar destino "colonia" ""
  let ady1 :=
    if (vecinosA red2.adyacencia origen).any (fun p => p.1 == destino) then red2.adyacencia
    else dictModify red2.adyacencia origen (fun l => l ++ [(destino, minutos)])
  let ady2 :=
    if (vecinosA ady1 destino).any (fun p => p.1 == origen) then ady1
    else dictModify ady1 destino (fun l => l ++ [(origen, minutos)])
  { red2 with adyacencia := ady2 }

/-- `RedHospitalaria.hospitales`. -/
def RedHospitalaria.hospitales (red : RedHospitalaria) : List V :=
  (red.nodos.filter (fun p => p.2.tipo == "hospital")).map Prod.fst

/-! ### The engine shared by both `dijkstra` functions -/

/-- The mutable state of one run: `distancias`, `predecesores`, `visitados`
(with its insertion order kept, which the set does not observe) and
`cola_prioridad`. -/
structure DState where
  dist : V → ℕ∞
  prev : V → Option V
  visited : List V
  heap : List (ℕ × V)

/-- Python string comparison: lexicographic on the code-point sequences. -/
def strLe (a b : V) : Prop := a.data < b.data ∨ a = b

instance : DecidableRel strLe := fun a b => by unfold strLe; infer_instance

/-- Lexicographic order on heap entries `(distancia, nodo)`: the order `heapq`
uses on Python tuples. -/
def entryLe (a b : ℕ × V) : Prop := a.1 < b.1 ∨ (a.1 = b.1 ∧ strLe a.2 b.2)

instance : DecidableRel entryLe := fun a b => by unfold entryLe; infer_instance

/-- `heapq.heappop`: one least entry together with the remaining entries. -/
def popMin : List (ℕ × V) → Option ((ℕ × V) × List (ℕ × V))
  | [] => none
  | x :: xs =>
    match popMin xs with
    | none => some (x, [])
    | some (m, rest) => if entryLe x m then some (x, xs) else some (m, x :: rest)

/-- Effect of the three update statements of a successful relaxation:
`distancias[vecino] = nueva_distancia`, `predecesores[vecino] = nodo_actual`,
`heappush(cola_prioridad, (nueva_distancia, vecino))`. -/
def relaxSet (u : V) (du : ℕ) (st : DState) (vw : V × ℕ) : DState :=
  { st with
    dist := upd st.dist vw.1 ↑(du + vw.2)
    prev := upd st.prev vw.1 (some u)
    heap := st.heap ++ [(du + vw.2, vw.1)] }

/-- Body of `for vecino, peso in grafo.obtener_vecinos(nodo_actual)`: skip
visited neighbours, otherwise relax the edge; on strict improvement update
`distancias` and `predecesores` and push the new entry. -/
def relaxOne (u : V) (du : ℕ) (st : DState) (vw : V × ℕ) : DState :=
  if vw.1 ∈ st.visited then st
  else if (↑(du + vw.2) : ℕ∞) < st.dist vw.1 then relaxSet u du st vw
  else st

/-- Visiting a freshly popped node: mark it visited, then relax all its
neighbours in adjacency-list order. -/
def visit (A : AdjList) (u : V) (du : ℕ) (st : DState) : DState :=
  (vecinosA A u).foldl (relaxOne u du) { st with visited := st.visited ++ [u] }

/-- One iteration of `while cola_prioridad:`: pop the least entry; discard it
if its node is already visited (lazy deletion), otherwise visit the node. -/
def step (A : AdjList) (st : DState) : Option DState :=
  match popMin st.heap with
  | none => none
  | some ((du, u), rest) =>
    if u ∈ st.visited then some { st with heap := rest }
    else some (visit A u du { st with heap := rest })

/-- Termination potential: every not-yet-visited adjacency entry can still
contribute its visit (1) plus at most one push per listed neighbour. -/
def potencial (A : AdjList) (visited : List V) : ℕ :=
  match A with
  | [] => 0
  | (k, l) :: rest => (if k ∈ visited then 0 else l.length + 1) + potencial rest visited

/-- Measure of a state: strictly decreases at every `step` (see `step_mu`). -/
def mu (A : AdjList) (st : DState) : ℕ := st.heap.length + potencial A st.visited

/-- The loop, iterated with fuel. -/
def dijkstraLoopFuel (A : AdjList) : ℕ → DState → DState
  | 0, st => st
  | n + 1, st =>
    match step A st with
    | none => st
    | some st' => dijkstraLoopFuel A n st'

/-- State after the initialisation block of `dijkstra`: all distances infinite
except the source at 0, no predecessors, nothing visited, heap `[(0, origen)]`. -/
def initState (s : V) : DState :=
  { dist := fun v => if v = s then 0 else ⊤
    prev := fun _ => none
    visited := []
    heap := [(0, s)] }

/-- Fuel that provably outlasts the loop (`mu` of the initial state plus one). -/
def fuelFor (A : AdjList) : ℕ := potencial A [] + 2

/-- The state in which the `while` loop of `dijkstra` terminates. -/
def dijkstraState (A : AdjList) (s : V) : DState :=
  dijkstraLoopFuel A (fuelFor A) (initState s)

/-- `dijkstra(grafo, origen)` from `dijkstra.py`: the returned
`(distancias, predecesores)` pair (total-map view; the dictionaries are keyed
by `grafo.vertices`, see `mkPrevDict`). -/
def dijkstra (grafo : Grafo) (origen : V) : (V → ℕ∞) × (V → Option V) :=
  ((dijkstraState grafo.aristas origen).dist, (dijkstraState grafo.aristas origen).prev)

/-- `dijkstra(red, origen)` from `dijkstra_hospitales.py` (the `pasos` log is a
pure by-product and is not modelled). -/
def dijkstraHosp (red : RedHospitalaria) (origen : V) : (V → ℕ∞) × (V → Option V) :=
  ((dijkstraState red.adyacencia origen).dist, (dijkstraState red.adyacencia origen).prev)

/-- The concrete `predecesores` dictionary a run returns: one binding per key
of the vertex dictionary, in its insertion order. -/
def mkPrevDict (verts : List V) (f : V → Option V) : List (V × Option V) :=
  verts.map (fun v => (v, f v))

/-! ### Path reconstruction -/

/-- Result of the backward `while nodo is not None` walk: the accumulated chain
on normal exit, the missing key on a `KeyError`, or fuel exhaustion (a model
artifact only: the Python loop simply has not terminated within that many
iterations). -/
inductive WalkRes where
  | ok (chain : List V)
  | keyErr (v : V)
  | out
deriving DecidableEq

/-- The backward walk shared by `reconstruir_camino` and `reconstruir_ruta`:
append the current node, then follow `predecesores[nodo]` (raising on a
missing key) until a node with no predecessor is reached. -/
def walkPrev (prevD : List (V × Option V)) : ℕ → V → WalkRes
  | 0, _ => .out
  | fuel + 1, node =>
    match lookupA prevD node with
    | none => .keyErr node
    | some none => .ok [node]
    | some (some p) =>
      match walkPrev prevD fuel p with
      | .ok chain => .ok (node :: chain)
      | e => e

/-- `reconstruir_camino(predecesores, origen, destino)` from `dijkstra.py`:
walk backward, reverse, and return `[]` when `camino[0] != origen`.  `none`
models a raised exception (`KeyError` on a malformed dictionary, or
`IndexError` on an empty chain) and the fuel-out artifact. -/
def reconstruir_camino (predecesores : List (V × Option V)) (origen destino : V)
    (fuel : ℕ) : Option (List V) :=
  match walkPrev predecesores fuel destino with
  | .ok chain =>
    match chain.reverse with
    | [] => none
    | h :: t => some (if h = origen then h :: t else [])
  | _ => none

/-- `reconstruir_ruta(prev, origen, destino)` from `dijkstra_hospitales.py`:
identical walk, but the final guard is `if not ruta or ruta[0] != origen`. -/
def reconstruir_ruta (prev : List (V × Option V)) (origen destino : V)
    (fuel : ℕ) : Option (List V) :=
  match walkPrev prev fuel destino with
  | .ok chain =>
    some (if chain.reverse = [] ∨ chain.reverse.head? ≠ some origen then []
          else chain.reverse)
  | _ => none

/-! ### `menu_calcular`: ranking reachable hospitals -/

/-- Pair order used by Python's `list.sort()` on `(tiempo, hospital)` tuples:
ascending time, ties broken by hospital name. -/
def pairLe (a b : ℕ × V) : Prop := a.1 < b.1 ∨ (a.1 = b.1 ∧ strLe a.2 b.2)

instance : DecidableRel pairLe := fun a b => by unfold pairLe; infer_instance

/-- Insertion into a `pairLe`-sorted list. -/
def insertLex (x : ℕ × V) : List (ℕ × V) → List (ℕ × V)
  | [] => [x]
  | y :: ys => if pairLe x y then x :: y :: ys else y :: insertLex x ys

/-- `hospitales_alcanzables.sort()`: the unique `pairLe`-sorted arrangement of
the list (the order is total and antisymmetric on distinct names, so any
correct sort — including Python's — produces this arrangement). -/
def sortLex : List (ℕ × V) → List (ℕ × V)
  | [] => []
  | x :: xs => insertLex x (sortLex xs)

/-- `[(dist[h], h) for h in red.hospitales() if dist[h] < math.inf]`. -/
def hospitalesAlcanzables (red : RedHospitalaria) (dist : V → ℕ∞) : List (ℕ × V) :=
  (red.hospitales.filter (fun h => decide (dist h < ⊤))).map
    (fun h => ((dist h).toNat, h))

/-- The observable outcome of `menu_calcular` (the prints are not modelled;
each constructor corresponds to one of its early `return`s or to the final
report, in the order the code checks them). -/
inductive ResultadoUrgencia where
  | sinHospitales
  | redMuyChica
  | origenInvalido
  | ningunoAlcanzable
  | recomendacion (ranking : List (ℕ × V)) (mejorTiempo : ℕ) (mejorHosp : V)
deriving DecidableEq

/-- `menu_calcular(red)` with the interactively read `origen` as a parameter. -/
def menu_calcular (red : RedHospitalaria) (origen : V) : ResultadoUrgencia :=
  if red.hospitales = [] then .sinHospitales
  else if red.nodos.length < 2 then .redMuyChica
  else if (lookupA red.nodos origen).isNone then .origenInvalido
  else
    let alcanzables := hospitalesAlcanzables red (dijkstraHosp red origen).1
    if alcanzables = [] then .ningunoAlcanzable
    else
      match sortLex alcanzables with
      | [] => .ningunoAlcanzable
      | (t, h) :: rest => .recomendacion ((t, h) :: rest) t h

/-! ### The example graph of `ejemplo_basico` -/

/-- The graph built by `ejemplo_basico()` in `dijkstra.py`. -/
def ejemploBasico : Grafo :=
  ((((((Grafo.vacio.agregar_arista "A" "B" 4).agregar_arista "A" "C" 2).agregar_arista
      "B" "C" 1).agregar_arista "B" "D" 5).agregar_arista "C" "D" 8).agregar_arista
      "C" "E" 10).agregar_arista "D" "E" 2

/-! ### Basic lemmas about the building blocks -/

theorem upd_self {α : Type} (f : V → α) (k : V) (x : α) : upd f k x k = x := by
  simp [upd]

theorem upd_ne {α : Type} (f : V → α) (k : V) (x : α) {v : V} (h : v ≠ k) :
    upd f k x v = f v := by
  simp [upd, h]

theorem strLe_refl (a : V) : strLe a a := Or.inr rfl

theorem strLe_trans {a b c : V} (h1 : strLe a b) (h2 : strLe b c) : strLe a c := by
  rcases h1 with h1 | rfl
  · rcases h2 with h2 | rfl
    · exact Or.inl (lt_trans h1 h2)
    · exact Or.inl h1
  · exact h2

theorem strLe_total (a b : V) : strLe a b ∨ strLe b a := by
  rcases lt_trichotomy a.data b.data with h | h | h
  · exact Or.inl (Or.inl h)
  · refine Or.inl (Or.inr ?_)
    cases a; cases b
    exact congrArg String.mk h
  · exact Or.inr (Or.inl h)

theorem entryLe_refl (a : ℕ × V) : entryLe a a := Or.inr ⟨rfl, strLe_refl _⟩

theorem entryLe_trans {a b c : ℕ × V} (h1 : entryLe a b) (h2 : entryLe b c) :
    entryLe a c := by
  rcases h1 with h1 | ⟨e1, s1⟩
  · rcases h2 with h2 | ⟨e2, _⟩
    · exact Or.inl (lt_trans h1 h2)
    · exact Or.inl (e2 ▸ h1)
  · rcases h2 with h2 | ⟨e2, s2⟩
    · exact Or.inl (e1 ▸ h2)
    · exact Or.inr ⟨e1.trans e2, strLe_trans s1 s2⟩

theorem entryLe_total (a b : ℕ × V) : entryLe a b ∨ entryLe b a := by
  rcases lt_trichotomy a.1 b.1 with h | h | h
  · exact Or.inl (Or.inl h)
  · rcases strLe_total a.2 b.2 with hs | hs
    · exact Or.inl (Or.inr ⟨h, hs⟩)
    · exact Or.inr (Or.inr ⟨h.symm, hs⟩)
  · exact Or.inr (Or.inl h)

theorem entryLe_fst {a b : ℕ × V} (h : entryLe a b) : a.1 ≤ b.1 := by
  rcases h with h | ⟨h, -⟩
  · exact le_of_lt h
  · exact le_of_eq h

theorem popMin_eq_none {h : List (ℕ × V)} : popMin h = none ↔ h = [] := by
  cases h with
  | nil => simp [popMin]
  | cons x xs =>
    simp only [popMin]
    constructor
    · intro hx
      cases hpx : popMin xs with
      | none => rw [hpx] at hx; simp at hx
      | some p =>
        rw [hpx] at hx
        obtain ⟨m, rest⟩ := p
        by_cases hle : entryLe x m <;> simp [hle] at hx
    · intro hx; cases hx

theorem popMin_perm {h : List (ℕ × V)} {e : ℕ × V} {rest : List (ℕ × V)}
    (hp : popMin h = some (e, rest)) : h.Perm (e :: rest) := by
  induction h generalizing e rest with
  | nil => simp [popMin] at hp
  | cons x xs ih =>
    simp only [popMin] at hp
    cases hpx : popMin xs with
    | none =>
      rw [hpx] at hp
      simp only [Option.some.injEq, Prod.mk.injEq] at hp
      obtain ⟨rfl, rfl⟩ := hp
      have : xs = [] := popMin_eq_none.mp hpx
      subst this
      exact List.Perm.refl _
    | some p =>
      obtain ⟨m, r⟩ := p
      rw [hpx] at hp
      by_cases hle : entryLe x m
      · simp only [hle, if_pos, Option.some.injEq, Prod.mk.injEq] at hp
        obtain ⟨rfl, rfl⟩ := hp
        exact List.Perm.refl _
      · simp only [hle, if_neg, not_false_iff, Option.some.injEq, Prod.mk.injEq] at hp
        obtain ⟨rfl, rfl⟩ := hp
        exact ((ih hpx).cons x).trans (List.Perm.swap m x r)

theorem popMin_min {h : List (ℕ × V)} {e : ℕ × V} {rest : List (ℕ × V)}
    (hp : popMin h = some (e, rest)) : ∀ x ∈ h, entryLe e x := by
  induction h generalizing e rest with
  | nil => simp [popMin] at hp
  | cons x xs ih =>
    simp only [popMin] at hp
    cases hpx : popMin xs with
    | none =>
      rw [hpx] at hp
      simp only [Option.some.injEq, Prod.mk.injEq] at hp
      obtain ⟨rfl, rfl⟩ := hp
      have : xs = [] := popMin_eq_none.mp hpx
      subst this
      intro y hy
      simp only [List.mem_singleton] at hy
      subst hy
      exact entryLe_refl _
    | some p =>
      obtain ⟨m, r⟩ := p
      rw [hpx] at hp
      by_cases hle : entryLe x m
      · simp only [hle, if_pos, Option.some.injEq, Prod.mk.injEq] at hp
        obtain ⟨rfl, rfl⟩ := hp
        intro y hy
        rcases List.mem_cons.mp hy with rfl | hy
        · exact entryLe_refl _
        · exact entryLe_trans hle (ih hpx y hy)
      · simp only [hle, if_neg, not_false_iff, Option.some.injEq, Prod.mk.injEq] at hp
        obtain ⟨rfl, rfl⟩ := hp
        intro y hy
        rcases List.mem_cons.mp hy with rfl | hy
        · exact (entryLe_total m _).resolve_right hle
        · exact ih hpx y hy

theorem popMin_mem {h : List (ℕ × V)} {e : ℕ × V} {rest : List (ℕ × V)}
    (hp : popMin h = some (e, rest)) : e ∈ h :=
  (popMin_perm hp).mem_iff.mpr (List.mem_cons_self _ _)

theorem popMin_length {h : List (ℕ × V)} {e : ℕ × V} {rest : List (ℕ × V)}
    (hp : popMin h = some (e, rest)) : h.length = rest.length + 1 := by
  simpa using (popMin_perm hp).length_eq

theorem popMin_rest_subset {h : List (ℕ × V)} {e : ℕ × V} {rest : List (ℕ × V)}
    (hp : popMin h = some (e, rest)) : ∀ x ∈ rest, x ∈ h := by
  intro x hx
  exact (popMin_perm hp).mem_iff.mpr (List.mem_cons_of_mem _ hx)

theorem popMin_mem_rest {h : List (ℕ × V)} {e : ℕ × V} {rest : List (ℕ × V)}
    (hp : popMin h = some (e, rest)) {x : ℕ × V} (hx : x ∈ h) (hne : x ≠ e) :
    x ∈ rest := by
  rcases List.mem_cons.mp ((popMin_perm hp).mem_iff.mp hx) with rfl | hx
  · exact absurd rfl hne
  · exact hx

/-! ### Shape lemmas for `relaxOne` and the relaxation fold -/

theorem relaxOne_visited (u : V) (du : ℕ) (st : DState) (vw : V × ℕ) :
    (relaxOne u du st vw).visited = st.visited := by
  unfold relaxOne relaxSet
  split
  · rfl
  · split <;> rfl

theorem relaxOne_spec (u : V) (du : ℕ) (st : DState) (vw : V × ℕ) :
    relaxOne u du st vw = st ∨
      (vw.1 ∉ st.visited ∧ (↑(du + vw.2) : ℕ∞) < st.dist vw.1 ∧
        relaxOne u du st vw = relaxSet u du st vw) := by
  unfold relaxOne
  split
  · exact Or.inl rfl
  · split
    · next h1 h2 => exact Or.inr ⟨h1, h2, rfl⟩
    · exact Or.inl rfl

theorem relaxSet_visited (u : V) (du : ℕ) (st : DState) (vw : V × ℕ) :
    (relaxSet u du st vw).visited = st.visited := rfl

theorem relaxSet_heap (u : V) (du : ℕ) (st : DState) (vw : V × ℕ) :
    (relaxSet u du st vw).heap = st.heap ++ [(du + vw.2, vw.1)] := rfl

theorem relaxSet_dist_self (u : V) (du : ℕ) (st : DState) (vw : V × ℕ) :
    (relaxSet u du st vw).dist vw.1 = ↑(du + vw.2) := upd_self _ _ _

theorem relaxSet_prev_self (u : V) (du : ℕ) (st : DState) (vw : V × ℕ) :
    (relaxSet u du st vw).prev vw.1 = some u := upd_self _ _ _

theorem relaxSet_dist_ne (u : V) (du : ℕ) (st : DState) (vw : V × ℕ) {v : V}
    (h : v ≠ vw.1) : (relaxSet u du st vw).dist v = st.dist v := upd_ne _ _ _ h

theorem relaxSet_prev_ne (u : V) (du : ℕ) (st : DState) (vw : V × ℕ) {v : V}
    (h : v ≠ vw.1) : (relaxSet u du st vw).prev v = st.prev v := upd_ne _ _ _ h

theorem foldRelax_visited (u : V) (du : ℕ) (l : List (V × ℕ)) (t : DState) :
    (l.foldl (relaxOne u du) t).visited = t.visited := by
  induction l generalizing t with
  | nil => rfl
  | cons x xs ih => simp only [List.foldl_cons, ih, relaxOne_visited]

theorem foldRelax_heap_len (u : V) (du : ℕ) (l : List (V × ℕ)) (t : DState) :
    (l.foldl (relaxOne u du) t).heap.length ≤ t.heap.length + l.length := by
  induction l generalizing t with
  | nil => simp
  | cons x xs ih =>
    simp only [List.foldl_cons, List.length_cons]
    refine le_trans (ih _) ?_
    rcases relaxOne_spec u du t x with h | ⟨-, -, h⟩ <;> rw [h]
    · omega
    · rw [relaxSet_heap]
      simp
      omega

theorem foldRelax_dist_mono (u : V) (du : ℕ) (l : List (V × ℕ)) (t : DState) (v : V) :
    (l.foldl (relaxOne u du) t).dist v ≤ t.dist v := by
  induction l generalizing t with
  | nil => exact le_refl _
  | cons x xs ih =>
    simp only [List.foldl_cons]
    refine le_trans (ih _) ?_
    rcases relaxOne_spec u du t x with h | ⟨-, hlt, h⟩
    · rw [h]
    · rw [h]
      by_cases hv : v = x.1
      · subst hv
        rw [relaxSet_dist_self]
        exact le_of_lt hlt
      · rw [relaxSet_dist_ne _ _ _ _ hv]

theorem foldRelax_dist_visited (u : V) (du : ℕ) (l : List (V × ℕ)) (v : V) :
    ∀ t : DState, v ∈ t.visited → (l.foldl (relaxOne u du) t).dist v = t.dist v := by
  induction l with
  | nil => intro t _; rfl
  | cons x xs ih =>
    intro t hv
    simp only [List.foldl_cons]
    rcases relaxOne_spec u du t x with h | ⟨hx, -, h⟩
    · rw [h, ih _ hv]
    · have hne : v ≠ x.1 := fun he => hx (he ▸ hv)
      have hv' : v ∈ (relaxOne u du t x).visited := by rwa [relaxOne_visited]
      rw [ih _ hv', h, relaxSet_dist_ne _ _ _ _ hne]

theorem foldRelax_prev_visited (u : V) (du : ℕ) (l : List (V × ℕ)) (v : V) :
    ∀ t : DState, v ∈ t.visited → (l.foldl (relaxOne u du) t).prev v = t.prev v := by
  induction l with
  | nil => intro t _; rfl
  | cons x xs ih =>
    intro t hv
    simp only [List.foldl_cons]
    rcases relaxOne_spec u du t x with h | ⟨hx, -, h⟩
    · rw [h, ih _ hv]
    · have hne : v ≠ x.1 := fun he => hx (he ▸ hv)
      have hv' : v ∈ (relaxOne u du t x).visited := by rwa [relaxOne_visited]
      rw [ih _ hv', h, relaxSet_prev_ne _ _ _ _ hne]

theorem foldRelax_prev_changed (u : V) (du : ℕ) (l : List (V × ℕ)) (v : V) :
    ∀ t : DState, (l.foldl (relaxOne u du) t).prev v ≠ t.prev v →
      (l.foldl (relaxOne u du) t).dist v < t.dist v := by
  induction l with
  | nil => intro t h; exact absurd rfl h
  | cons x xs ih =>
    intro t h
    simp only [List.foldl_cons] at h ⊢
    rcases relaxOne_spec u du t x with he | ⟨hx, hlt, he⟩
    · rw [he] at h ⊢
      exact ih _ h
    · rw [he] at h ⊢
      by_cases hv : v = x.1
      · subst hv
        have h1 := foldRelax_dist_mono u du xs (relaxSet u du t x) x.1
        rw [relaxSet_dist_self] at h1
        exact lt_of_le_of_lt h1 hlt
      · by_cases hch : (xs.foldl (relaxOne u du) (relaxSet u du t x)).prev v =
            (relaxSet u du t x).prev v
        · rw [hch, relaxSet_prev_ne _ _ _ _ hv] at h
          exact absurd rfl h
        · have := ih _ hch
          rwa [relaxSet_dist_ne _ _ _ _ hv] at this

theorem foldRelax_post (u : V) (du : ℕ) (l : List (V × ℕ)) (vw : V × ℕ) :
    ∀ t : DState, vw ∈ l →
      (l.foldl (relaxOne u du) t).dist vw.1 ≤ ↑(du + vw.2) ∨ vw.1 ∈ t.visited := by
  induction l with
  | nil => intro t hvw; simp at hvw
  | cons x xs ih =>
    intro t hvw
    simp only [List.foldl_cons]
    rcases List.mem_cons.mp hvw with he | hvw
    · subst he
      by_cases hv : vw.1 ∈ t.visited
      · exact Or.inr hv
      · left
        have hstep : (relaxOne u du t vw).dist vw.1 ≤ ↑(du + vw.2) := by
          unfold relaxOne
          rw [if_neg hv]
          by_cases hlt : (↑(du + vw.2) : ℕ∞) < t.dist vw.1
          · rw [if_pos hlt, relaxSet_dist_self]
          · rw [if_neg hlt]
            exact le_of_not_lt hlt
        exact le_trans (foldRelax_dist_mono u du xs _ vw.1) hstep
    · rcases ih (relaxOne u du t x) hvw with h | h
      · exact Or.inl h
      · right
        rwa [relaxOne_visited] at h

/-! ### Termination of the loop -/

theorem potencial_mono (A : AdjList) {vis vis' : List V}
    (h : ∀ x ∈ vis, x ∈ vis') : potencial A vis' ≤ potencial A vis := by
  induction A with
  | nil => exact le_refl _
  | cons p rest ih =>
    obtain ⟨k, l⟩ := p
    simp only [potencial]
    refine Nat.add_le_add ?_ ih
    by_cases hk : k ∈ vis
    · simp [hk, h k hk]
    · split <;> omega

theorem potencial_drop (A : AdjList) {u : V} {l : List (V × ℕ)} {vis : List V}
    (hl : lookupA A u = some l) (hu : u ∉ vis) :
    potencial A (vis ++ [u]) + l.length + 1 ≤ potencial A vis := by
  induction A with
  | nil => simp [lookupA] at hl
  | cons p rest ih =>
    obtain ⟨k, l0⟩ := p
    simp only [lookupA] at hl
    by_cases hk : k = u
    · subst hk
      rw [if_pos rfl] at hl
      obtain rfl : l0 = l := by injection hl
      simp only [potencial]
      have h1 : k ∈ vis ++ [k] := by simp
      rw [if_pos h1, if_neg hu]
      have h2 : potencial rest (vis ++ [k]) ≤ potencial rest vis :=
        potencial_mono rest (fun x hx => by simp [hx])
      omega
    · rw [if_neg hk] at hl
      simp only [potencial]
      have hmem : (k ∈ vis ++ [u]) ↔ k ∈ vis := by
        simp only [List.mem_append, List.mem_singleton]
        exact or_iff_left hk
      have := ih hl
      by_cases hkv : k ∈ vis
      · rw [if_pos (hmem.mpr hkv), if_pos hkv]
        omega
      · rw [if_neg (fun hc => hkv (hmem.mp hc)), if_neg hkv]
        omega

theorem vecinosA_of_lookup_none (A : AdjList) {u : V} (h : lookupA A u = none) :
    vecinosA A u = [] := by
  simp [vecinosA, h]

theorem vecinosA_of_lookup_some (A : AdjList) {u : V} {l : List (V × ℕ)}
    (h : lookupA A u = some l) : vecinosA A u = l := by
  simp [vecinosA, h]

theorem step_eq_none {A : AdjList} {st : DState} : step A st = none ↔ st.heap = [] := by
  unfold step
  cases hp : popMin st.heap with
  | none => simpa using popMin_eq_none.mp hp
  | some p =>
    obtain ⟨⟨du, u⟩, rest⟩ := p
    constructor
    · intro h
      by_cases hu : u ∈ st.visited <;> simp [hu] at h
    · intro h
      rw [h] at hp
      simp [popMin] at hp

theorem step_mu {A : AdjList} {st st' : DState} (h : step A st = some st') :
    mu A st' < mu A st := by
  unfold step at h
  cases hp : popMin st.heap with
  | none => rw [hp] at h; exact absurd h (by simp)
  | some p =>
    obtain ⟨⟨du, u⟩, rest⟩ := p
    rw [hp] at h
    dsimp only at h
    have hlen : st.heap.length = rest.length + 1 := popMin_length hp
    by_cases hu : u ∈ st.visited
    · rw [if_pos hu] at h
      obtain rfl : ({ st with heap := rest } : DState) = st' := by injection h
      simp only [mu]
      omega
    · rw [if_neg hu] at h
      obtain rfl : visit A u du { st with heap := rest } = st' := by injection h
      simp only [mu, visit]
      have hv : (visit A u du { st with heap := rest }).visited = st.visited ++ [u] :=
        foldRelax_visited _ _ _ _
      unfold visit at hv
      rw [hv]
      have hh := foldRelax_heap_len u du (vecinosA A u)
        { st with visited := st.visited ++ [u], heap := rest }
      dsimp only at hh
      cases hl : lookupA A u with
      | none =>
        rw [vecinosA_of_lookup_none A hl] at hh ⊢
        simp only [List.length_nil] at hh
        have hpot : potencial A (st.visited ++ [u]) ≤ potencial A st.visited :=
          potencial_mono A (fun x hx => by simp [hx])
        omega
      | some l =>
        rw [vecinosA_of_lookup_some A hl] at hh ⊢
        have hpot := potencial_drop A hl hu
        omega

theorem loopFuel_heap_empty (A : AdjList) :
    ∀ (n : ℕ) (st : DState), mu A st < n → (dijkstraLoopFuel A n st).heap = [] := by
  intro n
  induction n with
  | zero => intro st h; omega
  | succ n ih =>
    intro st h
    unfold dijkstraLoopFuel
    cases hs : step A st with
    | none => exact step_eq_none.mp hs
    | some st' =>
      have := step_mu hs
      exact ih st' (by omega)

theorem mu_init (A : AdjList) (s : V) : mu A (initState s) < fuelFor A := by
  simp only [mu, initState, fuelFor, List.length_singleton]
  have : potencial A [] = potencial A [] := rfl
  omega

theorem dijkstraState_heap (A : AdjList) (s : V) : (dijkstraState A s).heap = [] :=
  loopFuel_heap_empty A _ _ (mu_init A s)

/-- Reachability between loop states: the reflexive-transitive closure of one
iteration of the `while` loop. -/
def StepsRel (A : AdjList) : DState → DState → Prop :=
  Relation.ReflTransGen (fun a b => step A a = some b)

theorem stepsRel_loopFuel (A : AdjList) (n : ℕ) (st : DState) :
    StepsRel A st (dijkstraLoopFuel A n st) := by
  induction n generalizing st with
  | zero => exact Relation.ReflTransGen.refl
  | succ n ih =>
    unfold dijkstraLoopFuel
    cases hs : step A st with
    | none => exact Relation.ReflTransGen.refl
    | some st' => exact Relation.ReflTransGen.head hs (ih st')

/-! ### Walks and the true shortest distance -/

/-- A walk in the adjacency structure: `Reaches A s v c` holds when some
sequence of adjacency steps leads from `s` to `v` with weights summing to `c`
(a "path from s to v" with its "sum of edge weights along the path"). -/
inductive Reaches (A : AdjList) (s : V) : V → ℕ → Prop
  | refl : Reaches A s s 0
  | tail {u c v w} : Reaches A s u c → (v, w) ∈ vecinosA A u → Reaches A s v (c + w)

/-- `v` can be reached from `s` along recorded adjacency. -/
def Reachable (A : AdjList) (s v : V) : Prop := ∃ c, Reaches A s v c

/-- The minimum, over all walks from `s` to `v`, of the sum of edge weights
along the walk; `⊤` when no walk exists. -/
noncomputable def delta (A : AdjList) (s v : V) : ℕ∞ :=
  sInf {d : ℕ∞ | ∃ c : ℕ, Reaches A s v c ∧ d = ↑c}

theorem delta_le_of_reaches {A : AdjList} {s v : V} {c : ℕ} (h : Reaches A s v c) :
    delta A s v ≤ ↑c :=
  sInf_le ⟨c, h, rfl⟩

theorem le_delta {A : AdjList} {s v : V} (x : ℕ∞)
    (h : ∀ c : ℕ, Reaches A s v c → x ≤ ↑c) : x ≤ delta A s v := by
  refine le_sInf ?_
  rintro d ⟨c, hc, rfl⟩
  exact h c hc

theorem delta_self (A : AdjList) (s : V) : delta A s s = 0 :=
  le_antisymm (by simpa using delta_le_of_reaches (Reaches.refl)) (zero_le _)

theorem delta_eq_top {A : AdjList} {s v : V} (h : ¬ Reachable A s v) :
    delta A s v = ⊤ := by
  have he : {d : ℕ∞ | ∃ c : ℕ, Reaches A s v c ∧ d = ↑c} = ∅ := by
    ext d
    simp only [Set.mem_setOf_eq, Set.mem_empty_iff_false, iff_false, not_exists]
    intro c hc
    exact absurd ⟨c, hc.1⟩ h
  rw [delta, he, sInf_empty]

theorem delta_ne_top {A : AdjList} {s v : V} (h : Reachable A s v) :
    delta A s v ≠ ⊤ := by
  obtain ⟨c, hc⟩ := h
  exact ne_top_of_le_ne_top (ENat.coe_ne_top c) (delta_le_of_reaches hc)

theorem delta_attained {A : AdjList} {s v : V} (h : Reachable A s v) :
    ∃ c : ℕ, Reaches A s v c ∧ delta A s v = ↑c := by
  have hmem : sInf {c | Reaches A s v c} ∈ {c | Reaches A s v c} :=
    Nat.sInf_mem h
  refine ⟨sInf {c | Reaches A s v c}, hmem, le_antisymm (delta_le_of_reaches hmem) ?_⟩
  refine le_delta _ (fun c hc => ?_)
  exact ENat.coe_le_coe.mpr (Nat.sInf_le hc)

theorem delta_triangle {A : AdjList} (s : V) {u v : V} {w : ℕ}
    (hvw : (v, w) ∈ vecinosA A u) : delta A s v ≤ delta A s u + ↑w := by
  by_cases h : Reachable A s u
  · obtain ⟨c, hc, hd⟩ := delta_attained h
    rw [hd]
    calc delta A s v ≤ ↑(c + w) := delta_le_of_reaches (hc.tail hvw)
      _ = ↑c + ↑w := by push_cast; rfl
  · rw [delta_eq_top h]
    simp

/-- First exit of a walk out of the visited set: a walk from a visited `s` to
an unvisited `v` crosses, at its first unvisited vertex, an edge from a visited
vertex, and the walk weight up to that crossing is at most the whole weight. -/
theorem reaches_exit {A : AdjList} {s : V} {vis : List V} (hs : s ∈ vis) :
    ∀ {v : V} {c : ℕ}, Reaches A s v c → v ∉ vis →
      ∃ x y wxy cx, x ∈ vis ∧ y ∉ vis ∧ (y, wxy) ∈ vecinosA A x ∧
        Reaches A s x cx ∧ cx + wxy ≤ c := by
  intro v c h
  induction h with
  | refl => intro hv; exact absurd hs hv
  | tail hr hvw ih =>
    rename_i u c' v' w'
    intro hv
    by_cases hu : u ∈ vis
    · exact ⟨u, v', w', c', hu, hv, hvw, hr, le_refl _⟩
    · obtain ⟨x, y, wxy, cx, h1, h2, h3, h4, h5⟩ := ih hu
      exact ⟨x, y, wxy, cx, h1, h2, h3, h4, le_trans h5 (Nat.le_add_right _ _)⟩

/-- A concrete vertex sequence forming a walk of total weight `c`: consecutive
elements are adjacent and the edge weights sum to `c`. -/
inductive Chain (A : AdjList) : List V → ℕ → Prop
  | single (v : V) : Chain A [v] 0
  | cons {u v : V} {w : ℕ} {l : List V} {c : ℕ} :
      (v, w) ∈ vecinosA A u → Chain A (v :: l) c → Chain A (u :: v :: l) (w + c)

/-! ### The run invariant -/

/-- Position of the first occurrence of `a` in `l` (visit order of a vertex). -/
def rankOf (l : List V) (a : V) : ℕ :=
  match l with
  | [] => 0
  | x :: xs => if x = a then 0 else rankOf xs a + 1

theorem rankOf_append_of_mem {l : List V} {a : V} (h : a ∈ l) (l' : List V) :
    rankOf (l ++ l') a = rankOf l a := by
  induction l with
  | nil => simp at h
  | cons x xs ih =>
    simp only [List.cons_append, rankOf]
    by_cases hx : x = a
    · simp [hx]
    · rcases List.mem_cons.mp h with he | hm
      · exact absurd he.symm hx
      · simp [hx, ih hm]

theorem rankOf_append_self {l : List V} {u : V} (h : u ∉ l) :
    rankOf (l ++ [u]) u = l.length := by
  induction l with
  | nil => simp [rankOf]
  | cons x xs ih =>
    have hx : x ≠ u := fun he => h (he ▸ List.mem_cons_self x xs)
    have hm : u ∉ xs := fun hm => h (List.mem_cons_of_mem _ hm)
    simp only [List.cons_append, rankOf, hx, if_false, List.length_cons]
    exact congrArg (· + 1) (ih hm)

theorem rankOf_lt_length {l : List V} {a : V} (h : a ∈ l) : rankOf l a < l.length := by
  induction l with
  | nil => simp at h
  | cons x xs ih =>
    simp only [rankOf, List.length_cons]
    by_cases hx : x = a
    · simp [hx]
    · rcases List.mem_cons.mp h with he | hm
      · exact absurd he.symm hx
      · simp only [hx, if_false]
        exact Nat.succ_lt_succ (ih hm)

theorem lookupA_mem {α : Type} {A : List (V × α)} {u : V} {l : α}
    (h : lookupA A u = some l) : (u, l) ∈ A := by
  induction A with
  | nil => simp [lookupA] at h
  | cons p rest ih =>
    obtain ⟨k, l0⟩ := p
    simp only [lookupA] at h
    by_cases hk : k = u
    · subst hk
      rw [if_pos rfl] at h
      obtain rfl : l0 = l := by injection h
      exact List.mem_cons_self _ _
    · rw [if_neg hk] at h
      exact List.mem_cons_of_mem _ (ih h)

/-- The loop invariant of one run of `dijkstra` from source `s`, over the
adjacency structure `A`.  It holds after the initialisation and is preserved
by every loop iteration. -/
structure LoopInv (A : AdjList) (s : V) (st : DState) : Prop where
  hd0 : st.dist s = 0
  sInit : st.visited = [] →
    st.heap = [(0, s)] ∧ (∀ v, st.dist v = if v = s then 0 else ⊤) ∧
      (∀ v, st.prev v = none)
  sVis : st.visited ≠ [] → s ∈ st.visited
  visA : ∀ u ∈ st.visited, st.dist u = delta A s u
  visFin : ∀ u ∈ st.visited, st.dist u ≠ ⊤
  nodup : st.visited.Nodup
  relaxed : ∀ x ∈ st.visited, ∀ p ∈ vecinosA A x, st.dist p.1 ≤ st.dist x + ↑p.2
  heapBound : ∀ e ∈ st.heap, st.dist e.2 ≤ (↑e.1 : ℕ∞)
  heapCover : ∀ v, v ∉ st.visited → st.dist v ≠ ⊤ →
    ∃ d, (d, v) ∈ st.heap ∧ (↑d : ℕ∞) = st.dist v
  distUB : ∀ v, delta A s v ≤ st.dist v
  prevDist : ∀ v x, st.prev v = some x → x ∈ st.visited ∧
    ∃ w, (v, w) ∈ vecinosA A x ∧ st.dist v = st.dist x + ↑w
  prevRank : ∀ v x, st.prev v = some x → v ∈ st.visited →
    rankOf st.visited x < rankOf st.visited v
  prevTop : ∀ v, st.dist v = ⊤ → st.prev v = none
  prevSrc : st.prev s = none
  prevSome : ∀ v, v ≠ s → st.dist v ≠ ⊤ → ∃ x, st.prev v = some x

theorem inv_init (A : AdjList) (s : V) : LoopInv A s (initState s) := by
  constructor
  case hd0 => simp [initState]
  case sInit => intro _; exact ⟨rfl, fun v => rfl, fun v => rfl⟩
  case sVis => intro h; exact absurd rfl h
  case visA => intro u hu; simp [initState] at hu
  case visFin => intro u hu; simp [initState] at hu
  case nodup => exact List.nodup_nil
  case relaxed => intro x hx; simp [initState] at hx
  case heapBound =>
    intro e he
    simp only [initState, List.mem_singleton] at he
    subst he
    simp [initState]
  case heapCover =>
    intro v _ hv
    by_cases hs : v = s
    · subst hs
      exact ⟨0, List.mem_singleton.mpr rfl, by simp [initState]⟩
    · exact absurd (by simp [initState, hs]) hv
  case distUB =>
    intro v
    by_cases hs : v = s
    · subst hs
      simp [initState, delta_self]
    · simp [initState, hs]
  case prevDist => intro v x h; simp [initState] at h
  case prevRank => intro v x h; simp [initState] at h
  case prevTop => intro v _; rfl
  case prevSrc => rfl
  case prevSome =>
    intro v hvs hv
    exact absurd (by simp [initState, hvs]) hv

/-- When the loop pops an unvisited node `u` with priority `du`, the current
tentative distance of `u` is exactly `du`, and it is the true shortest
distance from the source (the heart of Dijkstra's correctness). -/
theorem pop_min_dist {A : AdjList} {s : V} {st : DState} {du : ℕ} {u : V}
    {rest : List (ℕ × V)} (hInv : LoopInv A s st)
    (hp : popMin st.heap = some ((du, u), rest)) (hu : u ∉ st.visited) :
    st.dist u = (↑du : ℕ∞) ∧ delta A s u = (↑du : ℕ∞) := by
  by_cases hvis : st.visited = []
  · obtain ⟨hheap, hdist, -⟩ := hInv.sInit hvis
    rw [hheap] at hp
    have : popMin [((0 : ℕ), s)] = some ((0, s), []) := rfl
    rw [this] at hp
    simp only [Option.some.injEq, Prod.mk.injEq] at hp
    obtain ⟨⟨rfl, rfl⟩, rfl⟩ := hp
    refine ⟨by simpa using hdist s, ?_⟩
    rw [delta_self]
    simp
  · have hs : s ∈ st.visited := hInv.sVis hvis
    have hmem : (du, u) ∈ st.heap := popMin_mem hp
    have h1 : st.dist u ≤ (↑du : ℕ∞) := hInv.heapBound _ hmem
    have hne : st.dist u ≠ ⊤ := ne_top_of_le_ne_top (ENat.coe_ne_top du) h1
    obtain ⟨d0, hd0mem, hd0eq⟩ := hInv.heapCover u hu hne
    have hdu_d0 : du ≤ d0 := entryLe_fst (popMin_min hp _ hd0mem)
    have heq : st.dist u = (↑du : ℕ∞) := by
      refine le_antisymm h1 ?_
      rw [← hd0eq]
      exact ENat.coe_le_coe.mpr hdu_d0
    refine ⟨heq, ?_⟩
    have hub : delta A s u ≤ st.dist u := hInv.distUB u
    have hlb : st.dist u ≤ delta A s u := by
      refine le_delta _ (fun c hc => ?_)
      obtain ⟨x, y, wxy, cx, hxvis, hynvis, hedge, hwalk, hsum⟩ :=
        reaches_exit hs hc hu
      have h2 : st.dist y ≤ st.dist x + ↑wxy := hInv.relaxed x hxvis (y, wxy) hedge
      have h3 : st.dist x = delta A s x := hInv.visA x hxvis
      have h4 : delta A s x ≤ ↑cx := delta_le_of_reaches hwalk
      have h5 : st.dist y ≤ (↑(cx + wxy) : ℕ∞) := by
        refine le_trans h2 ?_
        rw [h3]
        push_cast
        exact add_le_add_right h4 _
      have h6 : st.dist y ≤ (↑c : ℕ∞) :=
        le_trans h5 (ENat.coe_le_coe.mpr hsum)
      have h7 : st.dist y ≠ ⊤ := ne_top_of_le_ne_top (ENat.coe_ne_top c) h6
      obtain ⟨dy, hdymem, hdyeq⟩ := hInv.heapCover y hynvis h7
      have h8 : du ≤ dy := entryLe_fst (popMin_min hp _ hdymem)
      calc st.dist u = (↑du : ℕ∞) := heq
        _ ≤ (↑dy : ℕ∞) := ENat.coe_le_coe.mpr h8
        _ = st.dist y := hdyeq
        _ ≤ ↑c := h6
    rw [← heq]
    exact le_antisymm hub hlb

/-- The invariant maintained while the neighbours of the freshly visited node
`u` (popped with priority `du`) are being relaxed one by one. -/
structure RInv (A : AdjList) (s u : V) (du : ℕ) (t : DState) : Prop where
  uVis : u ∈ t.visited
  uD : t.dist u = (↑du : ℕ∞)
  hd0 : t.dist s = 0
  sVis : s ∈ t.visited
  visA : ∀ x ∈ t.visited, t.dist x = delta A s x
  visFin : ∀ x ∈ t.visited, t.dist x ≠ ⊤
  nodup : t.visited.Nodup
  relaxedOld : ∀ x ∈ t.visited, x ≠ u → ∀ p ∈ vecinosA A x, t.dist p.1 ≤ t.dist x + ↑p.2
  heapBound : ∀ e ∈ t.heap, t.dist e.2 ≤ (↑e.1 : ℕ∞)
  heapCover : ∀ v, v ∉ t.visited → t.dist v ≠ ⊤ →
    ∃ d, (d, v) ∈ t.heap ∧ (↑d : ℕ∞) = t.dist v
  distUB : ∀ v, delta A s v ≤ t.dist v
  prevDist : ∀ v x, t.prev v = some x → x ∈ t.visited ∧
    ∃ w, (v, w) ∈ vecinosA A x ∧ t.dist v = t.dist x + ↑w
  prevRank : ∀ v x, t.prev v = some x → v ∈ t.visited →
    rankOf t.visited x < rankOf t.visited v
  prevTop : ∀ v, t.dist v = ⊤ → t.prev v = none
  prevSrc : t.prev s = none
  prevSome : ∀ v, v ≠ s → t.dist v ≠ ⊤ → ∃ x, t.prev v = some x

theorem rinv_relaxOne {A : AdjList} {s u : V} {du : ℕ} {t : DState} {vw : V × ℕ}
    (hvw : vw ∈ vecinosA A u) (h : RInv A s u du t) :
    RInv A s u du (relaxOne u du t vw) := by
  rcases relaxOne_spec u du t vw with he | ⟨hx, hlt, he⟩
  · rwa [he]
  · rw [he]
    have hne_u : u ≠ vw.1 := fun hc => hx (hc ▸ h.uVis)
    have hne_s : s ≠ vw.1 := fun hc => hx (hc ▸ h.sVis)
    have hdu : delta A s u = (↑du : ℕ∞) := by rw [← h.visA u h.uVis, h.uD]
    constructor
    case uVis => exact h.uVis
    case uD => rw [relaxSet_dist_ne _ _ _ _ hne_u, h.uD]
    case hd0 => rw [relaxSet_dist_ne _ _ _ _ hne_s, h.hd0]
    case sVis => exact h.sVis
    case visA =>
      intro x hxv
      have : x ≠ vw.1 := fun hc => hx (hc ▸ hxv)
      rw [relaxSet_dist_ne _ _ _ _ this]
      exact h.visA x hxv
    case visFin =>
      intro x hxv
      have : x ≠ vw.1 := fun hc => hx (hc ▸ hxv)
      rw [relaxSet_dist_ne _ _ _ _ this]
      exact h.visFin x hxv
    case nodup => exact h.nodup
    case relaxedOld =>
      intro x hxv hxu p hp
      have hxne : x ≠ vw.1 := fun hc => hx (hc ▸ hxv)
      rw [relaxSet_dist_ne _ _ _ _ hxne]
      by_cases hpv : p.1 = vw.1
      · rw [hpv, relaxSet_dist_self]
        refine le_trans (le_of_lt hlt) ?_
        rw [← hpv]
        exact h.relaxedOld x hxv hxu p hp
      · rw [relaxSet_dist_ne _ _ _ _ hpv]
        exact h.relaxedOld x hxv hxu p hp
    case heapBound =>
      intro e hemem
      rw [relaxSet_heap] at hemem
      rcases List.mem_append.mp hemem with hemem | hemem
      · by_cases hev : e.2 = vw.1
        · rw [hev, relaxSet_dist_self]
          have h1 : t.dist e.2 ≤ (↑e.1 : ℕ∞) := h.heapBound e hemem
          rw [hev] at h1
          exact le_trans (le_of_lt hlt) h1
        · rw [relaxSet_dist_ne _ _ _ _ hev]
          exact h.heapBound e hemem
      · simp only [List.mem_singleton] at hemem
        subst hemem
        rw [relaxSet_dist_self]
    case heapCover =>
      intro v hv hvtop
      by_cases hveq : v = vw.1
      · subst hveq
        refine ⟨du + vw.2, ?_, (relaxSet_dist_self _ _ _ _).symm⟩
        rw [relaxSet_heap]
        simp
      · rw [relaxSet_dist_ne _ _ _ _ hveq] at hvtop
        obtain ⟨d, hd1, hd2⟩ := h.heapCover v hv hvtop
        refine ⟨d, ?_, by rw [relaxSet_dist_ne _ _ _ _ hveq]; exact hd2⟩
        rw [relaxSet_heap]
        exact List.mem_append_left _ hd1
    case distUB =>
      intro v
      by_cases hveq : v = vw.1
      · subst hveq
        rw [relaxSet_dist_self]
        calc delta A s vw.1 ≤ delta A s u + ↑vw.2 := delta_triangle s hvw
          _ = ↑du + ↑vw.2 := by rw [hdu]
          _ = ↑(du + vw.2) := by push_cast; rfl
      · rw [relaxSet_dist_ne _ _ _ _ hveq]
        exact h.distUB v
    case prevDist =>
      intro v x hpv
      by_cases hveq : v = vw.1
      · subst hveq
        rw [relaxSet_prev_self] at hpv
        obtain rfl : x = u := by injection hpv.symm
        refine ⟨h.uVis, vw.2, hvw, ?_⟩
        rw [relaxSet_dist_self, relaxSet_dist_ne _ _ _ _ hne_u, h.uD]
        push_cast
        rfl
      · rw [relaxSet_prev_ne _ _ _ _ hveq] at hpv
        obtain ⟨hxv, w, hw1, hw2⟩ := h.prevDist v x hpv
        have hxne : x ≠ vw.1 := fun hc => hx (hc ▸ hxv)
        exact ⟨hxv, w, hw1, by
          rw [relaxSet_dist_ne _ _ _ _ hveq, relaxSet_dist_ne _ _ _ _ hxne]
          exact hw2⟩
    case prevRank =>
      intro v x hpv hvv
      rw [relaxSet_visited] at hvv ⊢
      by_cases hveq : v = vw.1
      · exact absurd (hveq ▸ hvv) hx
      · rw [relaxSet_prev_ne _ _ _ _ hveq] at hpv
        exact h.prevRank v x hpv hvv
    case prevTop =>
      intro v hvtop
      by_cases hveq : v = vw.1
      · subst hveq
        rw [relaxSet_dist_self] at hvtop
        exact absurd hvtop (ENat.coe_ne_top _)
      · rw [relaxSet_dist_ne _ _ _ _ hveq] at hvtop
        rw [relaxSet_prev_ne _ _ _ _ hveq]
        exact h.prevTop v hvtop
    case prevSrc => rw [relaxSet_prev_ne _ _ _ _ hne_s, h.prevSrc]
    case prevSome =>
      intro v hvs hvtop
      by_cases hveq : v = vw.1
      · subst hveq
        exact ⟨u, relaxSet_prev_self _ _ _ _⟩
      · rw [relaxSet_dist_ne _ _ _ _ hveq] at hvtop
        obtain ⟨x, hxp⟩ := h.prevSome v hvs hvtop
        exact ⟨x, by rw [relaxSet_prev_ne _ _ _ _ hveq]; exact hxp⟩

theorem rinv_fold {A : AdjList} {s u : V} {du : ℕ} :
    ∀ (l : List (V × ℕ)), (∀ p ∈ l, p ∈ vecinosA A u) → ∀ {t : DState},
      RInv A s u du t → RInv A s u du (l.foldl (relaxOne u du) t) := by
  intro l
  induction l with
  | nil => intro _ t h; exact h
  | cons x xs ih =>
    intro hsub t h
    simp only [List.foldl_cons]
    exact ih (fun p hp => hsub p (List.mem_cons_of_mem _ hp))
      (rinv_relaxOne (hsub x (List.mem_cons_self _ _)) h)

theorem nodup_concat {l : List V} {u : V} (h : l.Nodup) (hu : u ∉ l) :
    (l ++ [u]).Nodup := by
  rw [List.nodup_append]
  refine ⟨h, List.nodup_singleton u, ?_⟩
  intro a ha hb
  simp only [List.mem_singleton] at hb
  exact hu (hb ▸ ha)

theorem rinv_base {A : AdjList} {s : V} {st : DState} {du : ℕ} {u : V}
    {rest : List (ℕ × V)} (hInv : LoopInv A s st)
    (hp : popMin st.heap = some ((du, u), rest)) (hu : u ∉ st.visited) :
    RInv A s u du { st with visited := st.visited ++ [u], heap := rest } := by
  obtain ⟨hdist_u, hdelta_u⟩ := pop_min_dist hInv hp hu
  constructor
  case uVis => simp
  case uD => exact hdist_u
  case hd0 => exact hInv.hd0
  case sVis =>
    by_cases hvis : st.visited = []
    · obtain ⟨hheap, -, -⟩ := hInv.sInit hvis
      rw [hheap] at hp
      have hpop : popMin [((0 : ℕ), s)] = some ((0, s), []) := rfl
      rw [hpop] at hp
      simp only [Option.some.injEq, Prod.mk.injEq] at hp
      obtain ⟨⟨-, rfl⟩, -⟩ := hp
      simp
    · have := hInv.sVis hvis
      simp [this]
  case visA =>
    intro x hx
    rcases List.mem_append.mp hx with hx | hx
    · exact hInv.visA x hx
    · simp only [List.mem_singleton] at hx
      subst hx
      dsimp only
      rw [hdist_u, hdelta_u]
  case visFin =>
    intro x hx
    rcases List.mem_append.mp hx with hx | hx
    · exact hInv.visFin x hx
    · simp only [List.mem_singleton] at hx
      subst hx
      dsimp only
      rw [hdist_u]
      exact ENat.coe_ne_top du
  case nodup => exact nodup_concat hInv.nodup hu
  case relaxedOld =>
    intro x hx hxu p hp'
    rcases List.mem_append.mp hx with hx | hx
    · exact hInv.relaxed x hx p hp'
    · simp only [List.mem_singleton] at hx
      exact absurd hx hxu
  case heapBound =>
    intro e he
    exact hInv.heapBound e (popMin_rest_subset hp e he)
  case heapCover =>
    intro v hv hvtop
    have hv1 : v ∉ st.visited := fun hc => hv (List.mem_append_left _ hc)
    have hv2 : v ≠ u := fun hc => hv (by simp [hc])
    obtain ⟨d, hd1, hd2⟩ := hInv.heapCover v hv1 hvtop
    refine ⟨d, ?_, hd2⟩
    refine popMin_mem_rest hp hd1 ?_
    intro hc
    exact hv2 (congrArg Prod.snd hc)
  case distUB => exact hInv.distUB
  case prevDist =>
    intro v x hpv
    obtain ⟨hx, w, hw1, hw2⟩ := hInv.prevDist v x hpv
    exact ⟨List.mem_append_left _ hx, w, hw1, hw2⟩
  case prevRank =>
    intro v x hpv hvv
    obtain ⟨hxvis, -⟩ := hInv.prevDist v x hpv
    dsimp only at hvv ⊢
    rcases List.mem_append.mp hvv with hvv | hvv
    · rw [rankOf_append_of_mem hxvis, rankOf_append_of_mem hvv]
      exact hInv.prevRank v x hpv hvv
    · simp only [List.mem_singleton] at hvv
      subst hvv
      rw [rankOf_append_of_mem hxvis, rankOf_append_self hu]
      exact rankOf_lt_length hxvis
  case prevTop => exact hInv.prevTop
  case prevSrc => exact hInv.prevSrc
  case prevSome => exact hInv.prevSome

theorem inv_step {A : AdjList} {s : V} {st st' : DState} (hInv : LoopInv A s st)
    (h : step A st = some st') : LoopInv A s st' := by
  unfold step at h
  cases hp : popMin st.heap with
  | none => rw [hp] at h; exact absurd h (by simp)
  | some p =>
    obtain ⟨⟨du, u⟩, rest⟩ := p
    rw [hp] at h
    dsimp only at h
    by_cases hu : u ∈ st.visited
    · rw [if_pos hu] at h
      obtain rfl : ({ st with heap := rest } : DState) = st' := by injection h
      have hvne : st.visited ≠ [] := fun hc => by rw [hc] at hu; simp at hu
      refine ⟨hInv.hd0, fun hc => absurd hc hvne, fun _ => hInv.sVis hvne, hInv.visA,
        hInv.visFin, hInv.nodup, hInv.relaxed, ?_, ?_, hInv.distUB, hInv.prevDist,
        hInv.prevRank, hInv.prevTop, hInv.prevSrc, hInv.prevSome⟩
      · intro e he
        exact hInv.heapBound e (popMin_rest_subset hp e he)
      · intro v hv hvtop
        have hv2 : v ≠ u := fun hc => hv (hc ▸ hu)
        obtain ⟨d, hd1, hd2⟩ := hInv.heapCover v hv hvtop
        exact ⟨d, popMin_mem_rest hp hd1 (fun hc => hv2 (congrArg Prod.snd hc)), hd2⟩
    · rw [if_neg hu] at h
      obtain rfl : visit A u du { st with heap := rest } = st' := by injection h
      have hbase := rinv_base hInv hp hu
      have hr : RInv A s u du (visit A u du { st with heap := rest }) := by
        unfold visit
        exact rinv_fold (vecinosA A u) (fun p hp' => hp') hbase
      have hvisited : (visit A u du { st with heap := rest }).visited =
          st.visited ++ [u] := by
        unfold visit
        exact foldRelax_visited _ _ _ _
      refine ⟨hr.hd0, ?_, fun _ => hr.sVis, hr.visA, hr.visFin, hr.nodup, ?_,
        hr.heapBound, hr.heapCover, hr.distUB, hr.prevDist, hr.prevRank, hr.prevTop,
        hr.prevSrc, hr.prevSome⟩
      · intro hc
        rw [hvisited] at hc
        exact absurd hc (by simp)
      · intro x hx p hp'
        by_cases hxu : x = u
        · subst hxu
          have hpost := foldRelax_post x du (vecinosA A x) p
            { st with visited := st.visited ++ [x], heap := rest } hp'
          rcases hpost with hpost | hpost
          · have : (visit A x du { st with heap := rest }).dist p.1 ≤ ↑(du + p.2) := by
              unfold visit
              exact hpost
            refine le_trans this ?_
            rw [hr.uD]
            push_cast
            exact le_refl _
          · have hpv : p.1 ∈ (visit A x du { st with heap := rest }).visited := by
              rw [hvisited]
              exact hpost
            rw [hr.visA p.1 hpv]
            calc delta A s p.1 ≤ delta A s x + ↑p.2 := delta_triangle s hp'
              _ = (visit A x du { st with heap := rest }).dist x + ↑p.2 := by
                  rw [hr.visA x hr.uVis]
        · exact hr.relaxedOld x hx hxu p hp'

/-! ### The invariant at the final state -/

theorem inv_stepsRel {A : AdjList} {s : V} {st st' : DState}
    (h : LoopInv A s st) (hs : StepsRel A st st') : LoopInv A s st' := by
  induction hs with
  | refl => exact h
  | tail _ hbc ih => exact inv_step ih hbc

theorem inv_dijkstraState (A : AdjList) (s : V) : LoopInv A s (dijkstraState A s) :=
  inv_stepsRel (inv_init A s) (stepsRel_loopFuel A _ _)

theorem dijkstraState_s_visited (A : AdjList) (s : V) :
    s ∈ (dijkstraState A s).visited := by
  have hInv := inv_dijkstraState A s
  by_cases hvis : (dijkstraState A s).visited = []
  · obtain ⟨hheap, -, -⟩ := hInv.sInit hvis
    rw [dijkstraState_heap] at hheap
    cases hheap
  · exact hInv.sVis hvis

theorem dijkstraState_finite_visited {A : AdjList} {s v : V}
    (h : (dijkstraState A s).dist v ≠ ⊤) : v ∈ (dijkstraState A s).visited := by
  by_contra hv
  obtain ⟨d, hd, -⟩ := (inv_dijkstraState A s).heapCover v hv h
  rw [dijkstraState_heap] at hd
  cases hd

/-- Final distances are the true minimal walk weights: the main consequence of
the loop invariant when the frontier has emptied. -/
theorem dijkstraState_dist (A : AdjList) (s v : V) :
    (dijkstraState A s).dist v = delta A s v := by
  have hInv := inv_dijkstraState A s
  refine le_antisymm ?_ (hInv.distUB v)
  by_cases hv : v ∈ (dijkstraState A s).visited
  · rw [hInv.visA v hv]
  · refine le_delta _ (fun c hc => ?_)
    exfalso
    obtain ⟨x, y, wxy, cx, hxvis, hynvis, hedge, -, -⟩ :=
      reaches_exit (dijkstraState_s_visited A s) hc hv
    have h1 : (dijkstraState A s).dist y ≤ (dijkstraState A s).dist x + ↑wxy :=
      hInv.relaxed x hxvis (y, wxy) hedge
    have h2 : (dijkstraState A s).dist x + (↑wxy : ℕ∞) ≠ ⊤ :=
      WithTop.add_ne_top.mpr ⟨hInv.visFin x hxvis, ENat.coe_ne_top wxy⟩
    have h3 : (dijkstraState A s).dist y ≠ ⊤ := ne_top_of_le_ne_top h2 h1
    obtain ⟨d, hd, -⟩ := hInv.heapCover y hynvis h3
    rw [dijkstraState_heap] at hd
    cases hd

/-! ### Heap and visited vertices stay inside the vertex set -/

/-- Closure of an adjacency dictionary over a vertex list: every recorded
neighbour is a listed vertex.  `Grafo.WF` and the hospital network's build
operations guarantee it. -/
def AdjWF (A : AdjList) (verts : List V) : Prop :=
  ∀ p ∈ A, ∀ q ∈ p.2, q.1 ∈ verts

instance (A : AdjList) (verts : List V) : Decidable (AdjWF A verts) := by
  unfold AdjWF; infer_instance

/-- Well-typedness of a loop state over the vertex list. -/
structure VertsInv (verts : List V) (st : DState) : Prop where
  heapV : ∀ e ∈ st.heap, e.2 ∈ verts
  visV : ∀ u ∈ st.visited, u ∈ verts

theorem foldRelax_heap_sub (u : V) (du : ℕ) (l : List (V × ℕ)) :
    ∀ (t : DState) (e : ℕ × V), e ∈ (l.foldl (relaxOne u du) t).heap →
      e ∈ t.heap ∨ ∃ vw ∈ l, e = (du + vw.2, vw.1) := by
  induction l with
  | nil => intro t e he; exact Or.inl he
  | cons x xs ih =>
    intro t e he
    simp only [List.foldl_cons] at he
    rcases ih (relaxOne u du t x) e he with h | ⟨vw, hvw, rfl⟩
    · rcases relaxOne_spec u du t x with hcase | ⟨-, -, hcase⟩
      · rw [hcase] at h
        exact Or.inl h
      · rw [hcase, relaxSet_heap] at h
        rcases List.mem_append.mp h with h | h
        · exact Or.inl h
        · simp only [List.mem_singleton] at h
          subst h
          exact Or.inr ⟨x, List.mem_cons_self _ _, rfl⟩
    · exact Or.inr ⟨vw, List.mem_cons_of_mem _ hvw, rfl⟩

theorem vinv_step {A : AdjList} {verts : List V} (hWF : AdjWF A verts)
    {st st' : DState} (hV : VertsInv verts st) (h : step A st = some st') :
    VertsInv verts st' := by
  unfold step at h
  cases hp : popMin st.heap with
  | none => rw [hp] at h; exact absurd h (by simp)
  | some p =>
    obtain ⟨⟨du, u⟩, rest⟩ := p
    rw [hp] at h
    dsimp only at h
    have huverts : u ∈ verts := hV.heapV (du, u) (popMin_mem hp)
    by_cases hu : u ∈ st.visited
    · rw [if_pos hu] at h
      obtain rfl : ({ st with heap := rest } : DState) = st' := by injection h
      exact ⟨fun e he => hV.heapV e (popMin_rest_subset hp e he), hV.visV⟩
    · rw [if_neg hu] at h
      obtain rfl : visit A u du { st with heap := rest } = st' := by injection h
      constructor
      · intro e he
        unfold visit at he
        rcases foldRelax_heap_sub u du (vecinosA A u) _ e he with he | ⟨vw, hvw, rfl⟩
        · exact hV.heapV e (popMin_rest_subset hp e he)
        · cases hl : lookupA A u with
          | none => rw [vecinosA_of_lookup_none A hl] at hvw; cases hvw
          | some l =>
            rw [vecinosA_of_lookup_some A hl] at hvw
            exact hWF (u, l) (lookupA_mem hl) vw hvw
      · intro x hx
        unfold visit at hx
        rw [foldRelax_visited] at hx
        dsimp only at hx
        rcases List.mem_append.mp hx with hx | hx
        · exact hV.visV x hx
        · simp only [List.mem_singleton] at hx
          exact hx ▸ huverts

theorem vinv_stepsRel {A : AdjList} {verts : List V} (hWF : AdjWF A verts)
    {st st' : DState} (hV : VertsInv verts st) (hs : StepsRel A st st') :
    VertsInv verts st' := by
  induction hs with
  | refl => exact hV
  | tail _ hbc ih => exact vinv_step hWF ih hbc

theorem vinv_dijkstraState {A : AdjList} {verts : List V} (hWF : AdjWF A verts)
    {s : V} (hs : s ∈ verts) : VertsInv verts (dijkstraState A s) := by
  refine vinv_stepsRel hWF ?_ (stepsRel_loopFuel A _ _)
  constructor
  · intro e he
    simp only [initState, List.mem_singleton] at he
    subst he
    exact hs
  · intro u hu
    simp [initState] at hu

/-! ### The backward walk over the returned predecessor dictionary -/

theorem mkPrevDict_lookup {verts : List V} {v : V} (h : v ∈ verts)
    (f : V → Option V) : lookupA (mkPrevDict verts f) v = some (f v) := by
  induction verts with
  | nil => simp at h
  | cons x xs ih =>
    simp only [mkPrevDict, List.map_cons, lookupA]
    by_cases hx : x = v
    · subst hx
      simp
    · rw [if_neg hx]
      rcases List.mem_cons.mp h with he | hm
      · exact absurd he.symm hx
      · exact ih hm

theorem chain_append {A : AdjList} {l : List V} {c : ℕ} (h : Chain A l c) :
    ∀ {u v : V} {w : ℕ}, l.getLast? = some u → (v, w) ∈ vecinosA A u →
      Chain A (l ++ [v]) (c + w) := by
  induction h with
  | single x =>
    intro u v w hlast hedge
    obtain rfl : x = u := by simpa using hlast
    have := Chain.cons hedge (Chain.single v)
    simpa [Nat.add_comm] using this
  | cons hedge0 hch ih =>
    intro u v w hlast hedge
    rename_i u0 v0 w0 l0 c0
    rw [List.getLast?_cons_cons] at hlast
    have := Chain.cons hedge0 (ih hlast hedge)
    simpa [Nat.add_assoc] using this

/-- The backward walk from any visited vertex succeeds, stays within the
dictionary, has length bounded by the visit rank, and reverses to a walk from
the source of total weight equal to the final distance. -/
theorem walk_prev_ok {A : AdjList} {verts : List V} {s : V}
    (hWF : AdjWF A verts) (hs : s ∈ verts) :
    ∀ (fuel : ℕ) (v : V), v ∈ (dijkstraState A s).visited →
      rankOf (dijkstraState A s).visited v < fuel →
      ∃ chain c,
        walkPrev (mkPrevDict verts (dijkstraState A s).prev) fuel v = .ok chain ∧
        chain.head? = some v ∧
        chain.length ≤ rankOf (dijkstraState A s).visited v + 1 ∧
        Chain A chain.reverse c ∧ chain.reverse.head? = some s ∧
        (↑c : ℕ∞) = (dijkstraState A s).dist v := by
  have hInv := inv_dijkstraState A s
  have hV := vinv_dijkstraState hWF hs
  intro fuel
  induction fuel with
  | zero => intro v _ hrank; omega
  | succ n ih =>
    intro v hv hrank
    have hvverts : v ∈ verts := hV.visV v hv
    have hlook : lookupA (mkPrevDict verts (dijkstraState A s).prev) v =
        some ((dijkstraState A s).prev v) :=
      mkPrevDict_lookup hvverts _
    cases hprev : (dijkstraState A s).prev v with
    | none =>
      have hfin : (dijkstraState A s).dist v ≠ ⊤ := hInv.visFin v hv
      have hvs : v = s := by
        by_contra hne
        obtain ⟨x, hx⟩ := hInv.prevSome v hne hfin
        rw [hprev] at hx
        cases hx
      refine ⟨[v], 0, ?_, rfl, by simp, ?_, ?_, ?_⟩
      · unfold walkPrev
        rw [hlook, hprev]
      · simpa using Chain.single v
      · simp [hvs]
      · rw [hvs, hInv.hd0]
        simp
    | some u =>
      obtain ⟨huvis, w, hedge, hdisteq⟩ := hInv.prevDist v u hprev
      have hrankuv : rankOf (dijkstraState A s).visited u <
          rankOf (dijkstraState A s).visited v := hInv.prevRank v u hprev hv
      have hranku : rankOf (dijkstraState A s).visited u < n := by omega
      obtain ⟨chain_u, c_u, hwalk_u, hhead_u, hlen_u, hchain_u, hrevhead_u, hcost_u⟩ :=
        ih u huvis hranku
      have hne : chain_u.reverse ≠ [] := by
        intro hc
        rw [hc] at hrevhead_u
        cases hrevhead_u
      refine ⟨v :: chain_u, c_u + w, ?_, rfl, ?_, ?_, ?_, ?_⟩
      · unfold walkPrev
        rw [hlook, hprev]
        dsimp only
        rw [hwalk_u]
      · simp only [List.length_cons]
        omega
      · have hlast : chain_u.reverse.getLast? = some u := by
          rw [List.getLast?_reverse]
          exact hhead_u
        have := chain_append hchain_u hlast hedge
        simpa using this
      · rw [List.reverse_cons]
        rw [List.head?_append_of_ne_nil _ hne]
        exact hrevhead_u
      · rw [hdisteq, ← hcost_u]
        push_cast
        rfl

/-! ### Consequences packaged for the two variants -/

theorem engine_correct (A : AdjList) (s v : V) :
    (dijkstraState A s).dist v = delta A s v ∧
      (¬ Reachable A s v →
        (dijkstraState A s).dist v = ⊤ ∧ (dijkstraState A s).prev v = none) := by
  refine ⟨dijkstraState_dist A s v, fun hnr => ?_⟩
  have h1 : (dijkstraState A s).dist v = ⊤ := by
    rw [dijkstraState_dist A s v]
    exact delta_eq_top hnr
  exact ⟨h1, (inv_dijkstraState A s).prevTop v h1⟩

theorem visited_length_le {A : AdjList} {verts : List V} {s : V}
    (hWF : AdjWF A verts) (hs : s ∈ verts) :
    (dijkstraState A s).visited.length ≤ verts.length := by
  have hnd := (inv_dijkstraState A s).nodup
  have hsub := (vinv_dijkstraState hWF hs).visV
  calc (dijkstraState A s).visited.length
      = (dijkstraState A s).visited.toFinset.card :=
        (List.toFinset_card_of_nodup hnd).symm
    _ ≤ verts.toFinset.card := by
        refine Finset.card_le_card ?_
        intro a ha
        rw [List.mem_toFinset] at ha ⊢
        exact hsub a ha
    _ ≤ verts.length := List.toFinset_card_le verts

theorem walk_ok_shape {prevD : List (V × Option V)} {fuel : ℕ} {v : V}
    {chain : List V} (h : walkPrev prevD fuel v = .ok chain) :
    ∃ t, chain = v :: t := by
  cases fuel with
  | zero => cases h
  | succ n =>
    unfold walkPrev at h
    cases hl : lookupA prevD v with
    | none => rw [hl] at h; cases h
    | some o =>
      rw [hl] at h
      cases o with
      | none =>
        simp only at h
        obtain rfl : [v] = chain := by injection h
        exact ⟨[], rfl⟩
      | some p =>
        simp only at h
        cases hw : walkPrev prevD n p with
        | ok c => rw [hw] at h; exact ⟨c, by injection h with h'; exact h'.symm⟩
        | keyErr e => rw [hw] at h; cases h
        | out => rw [hw] at h; cases h

theorem reconstruir_of_walk {prevD : List (V × Option V)} {origen destino : V}
    {fuel : ℕ} {chain : List V} (h : walkPrev prevD fuel destino = .ok chain)
    (hhead : chain.reverse.head? = some origen) :
    reconstruir_camino prevD origen destino fuel = some chain.reverse ∧
    reconstruir_ruta prevD origen destino fuel = some chain.reverse := by
  cases hrev : chain.reverse with
  | nil => rw [hrev] at hhead; cases hhead
  | cons hd tl =>
    rw [hrev] at hhead
    obtain rfl : hd = origen := by injection hhead
    constructor
    · unfold reconstruir_camino
      rw [h]
      dsimp only
      rw [hrev]
      simp
    · unfold reconstruir_ruta
      rw [h]
      dsimp only
      rw [hrev]
      simp

theorem step_keeps_visited {A : AdjList} {t t' : DState} (h : step A t = some t')
    {u : V} (hu : u ∈ t.visited) : u ∈ t'.visited ∧ t'.dist u = t.dist u := by
  unfold step at h
  cases hp : popMin t.heap with
  | none => rw [hp] at h; exact absurd h (by simp)
  | some p =>
    obtain ⟨⟨du, u0⟩, rest⟩ := p
    rw [hp] at h
    dsimp only at h
    by_cases hu0 : u0 ∈ t.visited
    · rw [if_pos hu0] at h
      obtain rfl : ({ t with heap := rest } : DState) = t' := by injection h
      exact ⟨hu, rfl⟩
    · rw [if_neg hu0] at h
      obtain rfl : visit A u0 du { t with heap := rest } = t' := by injection h
      constructor
      · unfold visit
        rw [foldRelax_visited]
        exact List.mem_append_left _ hu
      · unfold visit
        exact foldRelax_dist_visited u0 du (vecinosA A u0) u _ (List.mem_append_left _ hu)

theorem step_dist_mono {A : AdjList} {t t' : DState} (h : step A t = some t')
    (v : V) : t'.dist v ≤ t.dist v := by
  unfold step at h
  cases hp : popMin t.heap with
  | none => rw [hp] at h; exact absurd h (by simp)
  | some p =>
    obtain ⟨⟨du, u0⟩, rest⟩ := p
    rw [hp] at h
    dsimp only at h
    by_cases hu0 : u0 ∈ t.visited
    · rw [if_pos hu0] at h
      obtain rfl : ({ t with heap := rest } : DState) = t' := by injection h
      exact le_refl _
    · rw [if_neg hu0] at h
      obtain rfl : visit A u0 du { t with heap := rest } = t' := by injection h
      unfold visit
      exact foldRelax_dist_mono u0 du (vecinosA A u0) _ v

theorem step_prev_changed {A : AdjList} {t t' : DState} (h : step A t = some t')
    (v : V) (hch : t'.prev v ≠ t.prev v) : t'.dist v < t.dist v := by
  unfold step at h
  cases hp : popMin t.heap with
  | none => rw [hp] at h; exact absurd h (by simp)
  | some p =>
    obtain ⟨⟨du, u0⟩, rest⟩ := p
    rw [hp] at h
    dsimp only at h
    by_cases hu0 : u0 ∈ t.visited
    · rw [if_pos hu0] at h
      obtain rfl : ({ t with heap := rest } : DState) = t' := by injection h
      exact absurd rfl hch
    · rw [if_neg hu0] at h
      obtain rfl : visit A u0 du { t with heap := rest } = t' := by injection h
      unfold visit at hch ⊢
      exact foldRelax_prev_changed u0 du (vecinosA A u0) v _ hch

/-! ### The claims -/

/-- **C1**: for every well-formed graph (of either variant) with non-negative
finite edge weights and every source `s` in the vertex set, after
`dijkstra(graph, s)` completes, every vertex `v` reachable from `s` has
`distances[v]` equal to the minimum over all paths from `s` to `v` of the sum
of edge weights along the path, and every unreachable `v` has
`distances[v] = ∞` and `predecessors[v] = None`. -/
theorem dijkstra_minimal_distances (g : Grafo) (red : RedHospitalaria) (s v : V)
    (hg : g.WF) (hsg : s ∈ g.vertices)
    (hr : AdjWF red.adyacencia (red.nodos.map Prod.fst))
    (hsr : s ∈ red.nodos.map Prod.fst) :
    ((Reachable g.aristas s v → (dijkstra g s).1 v = delta g.aristas s v) ∧
      (¬ Reachable g.aristas s v →
        (dijkstra g s).1 v = ⊤ ∧ (dijkstra g s).2 v = none)) ∧
    ((Reachable red.adyacencia s v →
        (dijkstraHosp red s).1 v = delta red.adyacencia s v) ∧
      (¬ Reachable red.adyacencia s v →
        (dijkstraHosp red s).1 v = ⊤ ∧ (dijkstraHosp red s).2 v = none)) := by
  have hbase := engine_correct g.aristas s v
  have hhosp := engine_correct red.adyacencia s v
  exact ⟨⟨fun _ => hbase.1, hbase.2⟩, ⟨fun _ => hhosp.1, hhosp.2⟩⟩

/-- **C2**: for every well-formed adjacency structure with non-negative
weights (this covers both variants: `A := g.aristas` with
`verts := g.vertices`, and `A := red.adyacencia` with the keys of
`red.nodos`), every valid source `s` and every vertex `v ≠ s` reachable from
`s`, reconstructing the path from the predecessor dictionary produced by
`dijkstra` yields (under both `reconstruir_camino` and `reconstruir_ruta`) a
non-empty sequence from `s` to `v` whose consecutive vertices are adjacent and
whose edge weights sum to `distances[v]`. -/
theorem reconstruct_path_valid (A : AdjList) (verts : List V) (s v : V)
    (hWF : AdjWF A verts) (hs : s ∈ verts) (hv : v ∈ verts) (hne : v ≠ s)
    (hr : Reachable A s v) :
    ∃ path c,
      reconstruir_camino (mkPrevDict verts (dijkstraState A s).prev) s v
        (verts.length + 1) = some path ∧
      reconstruir_ruta (mkPrevDict verts (dijkstraState A s).prev) s v
        (verts.length + 1) = some path ∧
      path ≠ [] ∧ path.head? = some s ∧ path.getLast? = some v ∧
      Chain A path c ∧ (↑c : ℕ∞) = (dijkstraState A s).dist v := by
  have hfin : (dijkstraState A s).dist v ≠ ⊤ := by
    rw [dijkstraState_dist]
    exact delta_ne_top hr
  have hvis : v ∈ (dijkstraState A s).visited := dijkstraState_finite_visited hfin
  have hrank : rankOf (dijkstraState A s).visited v < verts.length + 1 := by
    have h1 := rankOf_lt_length hvis
    have h2 := visited_length_le hWF hs
    omega
  obtain ⟨chain, c, hwalk, hhead, hlen, hchain, hrevhead, hcost⟩ :=
    walk_prev_ok hWF hs (verts.length + 1) v hvis hrank
  obtain ⟨hrc, hrr⟩ := reconstruir_of_walk hwalk hrevhead
  refine ⟨chain.reverse, c, hrc, hrr, ?_, hrevhead, ?_, hchain, hcost⟩
  · intro hc
    rw [hc] at hrevhead
    cases hrevhead
  · rw [List.getLast?_reverse]
    exact hhead

/-- **C3**: during one run (both variants run this engine), once a vertex `u`
has been added to the visited set in a reachable loop state `st`, its distance
is never modified in any later state `st'`, and it already equals the true
minimum distance from the source. -/
theorem visited_distance_final (A : AdjList) (s : V) (st st' : DState)
    (h1 : StepsRel A (initState s) st) (h2 : StepsRel A st st') (u : V)
    (hu : u ∈ st.visited) :
    st'.dist u = st.dist u ∧ st.dist u = delta A s u := by
  constructor
  · have hcl : u ∈ st'.visited ∧ st'.dist u = st.dist u := by
      induction h2 with
      | refl => exact ⟨hu, rfl⟩
      | tail _ hbc ih =>
        obtain ⟨hb, heq⟩ := ih
        obtain ⟨hc, heq'⟩ := step_keeps_visited hbc hb
        exact ⟨hc, heq'.trans heq⟩
    exact hcl.2
  · exact (inv_stepsRel (inv_init A s) h1).visA u hu

/-- **C4**: along any run segment, each vertex's distance is monotonically
non-increasing; one loop iteration changes `predecesores[v]` only together
with a strict decrease of `distancias[v]`; and each single relaxation either
leaves the state untouched or strictly decreases the neighbour's distance to
the candidate value while writing its predecessor, in the same step. -/
theorem distance_monotone_prev_lockstep (A : AdjList) (st st' : DState)
    (h : StepsRel A st st') (v : V) :
    st'.dist v ≤ st.dist v ∧
    (∀ t t' : DState, step A t = some t' → t'.prev v ≠ t.prev v →
      t'.dist v < t.dist v) ∧
    (∀ (u : V) (du : ℕ) (t : DState) (vw : V × ℕ),
      relaxOne u du t vw = t ∨
        ((relaxOne u du t vw).dist vw.1 < t.dist vw.1 ∧
          (relaxOne u du t vw).prev vw.1 = some u ∧
          (relaxOne u du t vw).dist vw.1 = ↑(du + vw.2))) := by
  refine ⟨?_, fun t t' ht hch => step_prev_changed ht v hch, ?_⟩
  · induction h with
    | refl => exact le_refl _
    | tail _ hbc ih => exact le_trans (step_dist_mono hbc v) ih
  · intro u du t vw
    rcases relaxOne_spec u du t vw with he | ⟨-, hlt, he⟩
    · exact Or.inl he
    · rw [he]
      exact Or.inr ⟨by rw [relaxSet_dist_self]; exact hlt,
        relaxSet_prev_self _ _ _ _, relaxSet_dist_self _ _ _ _⟩

/-- **C5 (counterexample)**: on the malformed predecessor dictionary
`{"X": "Y"}` (the key `"Y"` is missing), the backward walk raises a `KeyError`
instead of returning the empty path: both reconstruction functions fail
(`none`, the model of an uncaught exception), so the claim that reconstruction
returns the empty sequence "for any malformed predecessor map, rather than
failing" is false as stated. -/
theorem reconstruct_malformed_counterexample :
    walkPrev [("X", some "Y")] 2 "X" = WalkRes.keyErr "Y" ∧
    reconstruir_camino [("X", some "Y")] "A" "X" 2 = none ∧
    reconstruir_ruta [("X", some "Y")] "A" "X" 2 = none := by
  decide

/-- **C5 (amended)**: for every predecessor dictionary, source, and
destination for which the backward walk terminates without a missing-key
lookup, both reconstruction functions return the empty sequence exactly when
the walked chain's first element (after reversal) differs from the source; in
particular they return the empty sequence when the destination's predecessor
is `None` and destination ≠ source (the unreachable case).  On a malformed
dictionary whose walk hits a missing key the code instead raises an error. -/
theorem reconstruct_empty_iff_head_ne_source (prevD : List (V × Option V))
    (origen destino : V) (fuel : ℕ) (chain : List V)
    (h : walkPrev prevD fuel destino = .ok chain) :
    (reconstruir_camino prevD origen destino fuel = some [] ↔
      chain.reverse.head? ≠ some origen) ∧
    (reconstruir_ruta prevD origen destino fuel = some [] ↔
      chain.reverse.head? ≠ some origen) ∧
    (lookupA prevD destino = some none → destino ≠ origen →
      reconstruir_camino prevD origen destino fuel = some []) := by
  obtain ⟨t0, rfl⟩ := walk_ok_shape h
  have hrevne : (destino :: t0).reverse ≠ [] := by simp
  obtain ⟨hd, tl, hrev⟩ : ∃ hd tl, (destino :: t0).reverse = hd :: tl := by
    cases hc : (destino :: t0).reverse with
    | nil => exact absurd hc hrevne
    | cons a b => exact ⟨a, b, rfl⟩
  have hiff1 : reconstruir_camino prevD origen destino fuel = some [] ↔ hd ≠ origen := by
    unfold reconstruir_camino
    rw [h]
    dsimp only
    rw [hrev]
    by_cases hh : hd = origen
    · subst hh
      simp
    · simp [hh]
  have hiff2 : reconstruir_ruta prevD origen destino fuel = some [] ↔ hd ≠ origen := by
    unfold reconstruir_ruta
    rw [h]
    dsimp only
    rw [hrev]
    by_cases hh : hd = origen
    · subst hh
      simp
    · simp [hh]
  have hheadeq : (destino :: t0).reverse.head? = some hd := by rw [hrev]; rfl
  have hiff0 : ((destino :: t0).reverse.head? ≠ some origen) ↔ hd ≠ origen := by
    rw [hheadeq]
    constructor
    · intro hne he
      exact hne (he ▸ rfl)
    · intro hne hc
      exact hne (by injection hc)
  refine ⟨hiff1.trans hiff0.symm, hiff2.trans hiff0.symm, ?_⟩
  intro hlook hne
  cases fuel with
  | zero => cases h
  | succ n =>
    unfold walkPrev at h
    rw [hlook] at h
    dsimp only at h
    have ht0 : t0 = [] := by
      injection h with h2
      injection h2 with h3 h4
      exact h4.symm
    subst ht0
    rw [hiff1]
    have hsing : ([destino] : List V) = hd :: tl := by
      rw [← hrev]
      rfl
    have hhd : hd = destino := by
      injection hsing with h5 h6
      exact h5.symm
    rw [hhd]
    exact hne

/-- **C6**: for every predecessor dictionary produced by `dijkstra` (either
variant) on a well-formed graph, and every destination in the dictionary, the
backward walk of the reconstruction functions terminates — the predecessor
pointers form no cycle — reaching a vertex with predecessor `None` after
appending at most `|V|` vertices. -/
theorem predecessor_walk_terminates (A : AdjList) (verts : List V) (s v : V)
    (hWF : AdjWF A verts) (hs : s ∈ verts) (hv : v ∈ verts) :
    ∃ chain,
      walkPrev (mkPrevDict verts (dijkstraState A s).prev) (verts.length + 1) v =
        .ok chain ∧ chain.length ≤ verts.length := by
  by_cases hfin : (dijkstraState A s).dist v = ⊤
  · have hprev : (dijkstraState A s).prev v = none :=
      (inv_dijkstraState A s).prevTop v hfin
    refine ⟨[v], ?_, ?_⟩
    · unfold walkPrev
      rw [mkPrevDict_lookup hv, hprev]
    · simpa using List.length_pos.mpr (List.ne_nil_of_mem hv)
  · have hvis : v ∈ (dijkstraState A s).visited := dijkstraState_finite_visited hfin
    have h1 := rankOf_lt_length hvis
    have h2 := visited_length_le hWF hs
    obtain ⟨chain, c, hwalk, -, hlen, -, -, -⟩ :=
      walk_prev_ok hWF hs (verts.length + 1) v hvis (by omega)
    exact ⟨chain, hwalk, by omega⟩

/-- **C7**: on the graph of `ejemplo_basico()` — edges A–B(4), A–C(2), B–C(1),
B–D(5), C–D(8), C–E(10), D–E(2) inserted in that order — `dijkstra` from `A`
returns distances A=0, B=3, C=2, D=8, E=10, and reconstructing A→E yields
exactly `[A, C, B, D, E]`. -/
theorem ejemplo_basico_results :
    (dijkstra ejemploBasico "A").1 "A" = ((0 : ℕ) : ℕ∞) ∧
    (dijkstra ejemploBasico "A").1 "B" = ((3 : ℕ) : ℕ∞) ∧
    (dijkstra ejemploBasico "A").1 "C" = ((2 : ℕ) : ℕ∞) ∧
    (dijkstra ejemploBasico "A").1 "D" = ((8 : ℕ) : ℕ∞) ∧
    (dijkstra ejemploBasico "A").1 "E" = ((10 : ℕ) : ℕ∞) ∧
    reconstruir_camino (mkPrevDict ejemploBasico.vertices (dijkstra ejemploBasico "A").2)
      "A" "E" (ejemploBasico.vertices.length + 1) = some ["A", "C", "B", "D", "E"] := by
  decide

/-- A small hospital network for concrete instantiations: one hospital `"H"`
reachable from the emergency site `"A"` in 5 minutes. -/
def redEjemplo : RedHospitalaria :=
  (RedHospitalaria.vacia.agregar_lugar "H" "hospital" "Centro").agregar_ruta "A" "H" 5

theorem dijkstra_minimal_distances_witness :
    ejemploBasico.WF ∧ "A" ∈ ejemploBasico.vertices ∧
    AdjWF redEjemplo.adyacencia (redEjemplo.nodos.map Prod.fst) ∧
    "A" ∈ redEjemplo.nodos.map Prod.fst ∧
    (((Reachable ejemploBasico.aristas "A" "B" →
        (dijkstra ejemploBasico "A").1 "B" = delta ejemploBasico.aristas "A" "B") ∧
      (¬ Reachable ejemploBasico.aristas "A" "B" →
        (dijkstra ejemploBasico "A").1 "B" = ⊤ ∧
          (dijkstra ejemploBasico "A").2 "B" = none)) ∧
     ((Reachable redEjemplo.adyacencia "A" "B" →
        (dijkstraHosp redEjemplo "A").1 "B" = delta redEjemplo.adyacencia "A" "B") ∧
      (¬ Reachable redEjemplo.adyacencia "A" "B" →
        (dijkstraHosp redEjemplo "A").1 "B" = ⊤ ∧
          (dijkstraHosp redEjemplo "A").2 "B" = none))) :=
  ⟨by decide, by decide, by decide, by decide,
    dijkstra_minimal_distances ejemploBasico redEjemplo "A" "B"
      (by decide) (by decide) (by decide) (by decide)⟩

theorem reconstruct_path_valid_witness :
    AdjWF ejemploBasico.aristas ejemploBasico.vertices ∧
    "A" ∈ ejemploBasico.vertices ∧ "C" ∈ ejemploBasico.vertices ∧
    ("C" : V) ≠ "A" ∧ Reachable ejemploBasico.aristas "A" "C" ∧
    (∃ path c,
      reconstruir_camino
        (mkPrevDict ejemploBasico.vertices (dijkstraState ejemploBasico.aristas "A").prev)
        "A" "C" (ejemploBasico.vertices.length + 1) = some path ∧
      reconstruir_ruta
        (mkPrevDict ejemploBasico.vertices (dijkstraState ejemploBasico.aristas "A").prev)
        "A" "C" (ejemploBasico.vertices.length + 1) = some path ∧
      path ≠ [] ∧ path.head? = some "A" ∧ path.getLast? = some "C" ∧
      Chain ejemploBasico.aristas path c ∧
      (↑c : ℕ∞) = (dijkstraState ejemploBasico.aristas "A").dist "C") :=
  ⟨by decide, by decide, by decide, by decide,
    ⟨0 + 2, Reaches.tail Reaches.refl (by decide)⟩,
    reconstruct_path_valid ejemploBasico.aristas ejemploBasico.vertices "A" "C"
      (by decide) (by decide) (by decide) (by decide)
      ⟨0 + 2, Reaches.tail Reaches.refl (by decide)⟩⟩

theorem visited_distance_final_witness :
    StepsRel ejemploBasico.aristas (initState "A")
      (dijkstraLoopFuel ejemploBasico.aristas 1 (initState "A")) ∧
    "A" ∈ (dijkstraLoopFuel ejemploBasico.aristas 1 (initState "A")).visited ∧
    ((dijkstraLoopFuel ejemploBasico.aristas 1 (initState "A")).dist "A" =
        (dijkstraLoopFuel ejemploBasico.aristas 1 (initState "A")).dist "A" ∧
      (dijkstraLoopFuel ejemploBasico.aristas 1 (initState "A")).dist "A" =
        delta ejemploBasico.aristas "A" "A") :=
  ⟨stepsRel_loopFuel _ 1 _, by decide,
    visited_distance_final ejemploBasico.aristas "A"
      (dijkstraLoopFuel ejemploBasico.aristas 1 (initState "A"))
      (dijkstraLoopFuel ejemploBasico.aristas 1 (initState "A"))
      (stepsRel_loopFuel _ 1 _) Relation.ReflTransGen.refl "A" (by decide)⟩

theorem distance_monotone_prev_lockstep_witness :
    StepsRel ejemploBasico.aristas (initState "A") (initState "A") ∧
    ((initState "A").dist "B" ≤ (initState "A").dist "B" ∧
    (∀ t t' : DState, step ejemploBasico.aristas t = some t' →
      t'.prev "B" ≠ t.prev "B" → t'.dist "B" < t.dist "B") ∧
    (∀ (u : V) (du : ℕ) (t : DState) (vw : V × ℕ),
      relaxOne u du t vw = t ∨
        ((relaxOne u du t vw).dist vw.1 < t.dist vw.1 ∧
          (relaxOne u du t vw).prev vw.1 = some u ∧
          (relaxOne u du t vw).dist vw.1 = ↑(du + vw.2)))) :=
  ⟨Relation.ReflTransGen.refl,
    distance_monotone_prev_lockstep ejemploBasico.aristas (initState "A")
      (initState "A") Relation.ReflTransGen.refl "B"⟩

theorem reconstruct_empty_iff_head_ne_source_witness :
    walkPrev [("B", some "A"), ("A", none)] 2 "B" = WalkRes.ok ["B", "A"] ∧
    ((reconstruir_camino [("B", some "A"), ("A", none)] "A" "B" 2 = some [] ↔
        (["B", "A"] : List V).reverse.head? ≠ some "A") ∧
      (reconstruir_ruta [("B", some "A"), ("A", none)] "A" "B" 2 = some [] ↔
        (["B", "A"] : List V).reverse.head? ≠ some "A") ∧
      (lookupA [("B", some "A"), ("A", none)] "B" = some none → ("B" : V) ≠ "A" →
        reconstruir_camino [("B", some "A"), ("A", none)] "A" "B" 2 = some [])) :=
  ⟨by decide,
    reconstruct_empty_iff_head_ne_source [("B", some "A"), ("A", none)]
      "A" "B" 2 ["B", "A"] (by decide)⟩

theorem predecessor_walk_terminates_witness :
    AdjWF ejemploBasico.aristas ejemploBasico.vertices ∧
    "A" ∈ ejemploBasico.vertices ∧ "E" ∈ ejemploBasico.vertices ∧
    (∃ chain,
      walkPrev
        (mkPrevDict ejemploBasico.vertices (dijkstraState ejemploBasico.aristas "A").prev)
        (ejemploBasico.vertices.length + 1) "E" = .ok chain ∧
      chain.length ≤ ejemploBasico.vertices.length) :=
  ⟨by decide, by decide, by decide,
    predecessor_walk_terminates ejemploBasico.aristas ejemploBasico.vertices "A" "E"
      (by decide) (by decide) (by decide)⟩

/-! ### Dictionary lemmas for the graph-building operations -/

theorem lookupA_append_some {α : Type} {A : List (V × α)} {k : V} {v : α}
    (h : lookupA A k = some v) (B : List (V × α)) :
    lookupA (A ++ B) k = some v := by
  induction A with
  | nil => simp [lookupA] at h
  | cons p rest ih =>
    obtain ⟨k', v'⟩ := p
    simp only [lookupA, List.cons_append] at h ⊢
    by_cases hk : k' = k
    · rwa [if_pos hk] at h ⊢
    · rw [if_neg hk] at h ⊢
      exact ih h

theorem lookupA_append_none {α : Type} {A : List (V × α)} {k : V}
    (h : lookupA A k = none) (B : List (V × α)) :
    lookupA (A ++ B) k = lookupA B k := by
  induction A with
  | nil => rfl
  | cons p rest ih =>
    obtain ⟨k', v'⟩ := p
    simp only [lookupA, List.cons_append] at h ⊢
    by_cases hk : k' = k
    · rw [if_pos hk] at h; cases h
    · rw [if_neg hk] at h ⊢
      exact ih h

theorem lookupA_dictModify_self {α : Type} {A : List (V × α)} {k : V} {l : α}
    (h : lookupA A k = some l) (f : α → α) :
    lookupA (dictModify A k f) k = some (f l) := by
  induction A with
  | nil => simp [lookupA] at h
  | cons p rest ih =>
    obtain ⟨k', v'⟩ := p
    simp only [lookupA, dictModify] at h ⊢
    by_cases hk : k' = k
    · rw [if_pos hk] at h ⊢
      obtain rfl : v' = l := by injection h
      simp [lookupA, hk]
    · rw [if_neg hk] at h ⊢
      simp only [lookupA, hk, if_false]
      exact ih h

theorem lookupA_dictModify_ne {α : Type} (A : List (V × α)) (k k' : V)
    (f : α → α) (h : k' ≠ k) :
    lookupA (dictModify A k f) k' = lookupA A k' := by
  induction A with
  | nil => rfl
  | cons p rest ih =>
    obtain ⟨k0, v0⟩ := p
    simp only [lookupA, dictModify]
    by_cases hk : k0 = k
    · subst hk
      rw [if_pos rfl]
      simp only [lookupA]
      rw [if_neg (fun hc => h hc.symm), if_neg (fun hc => h hc.symm)]
    · rw [if_neg hk]
      simp only [lookupA]
      by_cases hk' : k0 = k'
      · rw [if_pos hk', if_pos hk']
      · rw [if_neg hk', if_neg hk']
        exact ih

theorem mem_vecinosA_addnil (A : AdjList) (x u : V) (p : V × ℕ) :
    p ∈ vecinosA (A ++ [(x, [])]) u ↔ p ∈ vecinosA A u := by
  cases h : lookupA A u with
  | none =>
    rw [vecinosA, lookupA_append_none h]
    by_cases hx : x = u <;> simp [lookupA, hx, vecinosA, h]
  | some l =>
    rw [vecinosA, lookupA_append_some h]
    simp [vecinosA, h]

/-- Membership after one in-place append on key `k`. -/
theorem mem_vecinosA_modify1 {A : AdjList} {k : V} {lk : List (V × ℕ)}
    (hlk : lookupA A k = some lk) (e : V × ℕ) (u : V) (p : V × ℕ) :
    p ∈ vecinosA (dictModify A k (fun l => l ++ [e])) u ↔
      p ∈ vecinosA A u ∨ (u = k ∧ p = e) := by
  by_cases hu : u = k
  · subst hu
    rw [vecinosA, lookupA_dictModify_self hlk]
    simp [vecinosA, hlk]
  · rw [vecinosA, lookupA_dictModify_ne A k u _ hu]
    simp [vecinosA, hu]

/-- Membership after the two in-place appends of an undirected edge insert. -/
theorem mem_vecinosA_modify2 {A : AdjList} {o d : V} {lo ld : List (V × ℕ)}
    (hlo : lookupA A o = some lo) (hld : lookupA A d = some ld) (w : ℕ)
    (u : V) (p : V × ℕ) :
    p ∈ vecinosA (dictModify (dictModify A o (fun l => l ++ [(d, w)])) d
        (fun l => l ++ [(o, w)])) u ↔
      p ∈ vecinosA A u ∨ (u = o ∧ p = (d, w)) ∨ (u = d ∧ p = (o, w)) := by
  by_cases hod : o = d
  · subst hod
    have h1 : lookupA (dictModify A o (fun l => l ++ [(o, w)])) o =
        some (lo ++ [(o, w)]) := lookupA_dictModify_self hlo _
    rw [mem_vecinosA_modify1 h1 (o, w) u p, mem_vecinosA_modify1 hlo (o, w) u p]
    tauto
  · have h1 : lookupA (dictModify A o (fun l => l ++ [(d, w)])) d = some ld := by
      rw [lookupA_dictModify_ne A o d _ (fun hc => hod hc.symm)]
      exact hld
    rw [mem_vecinosA_modify1 h1 (o, w) u p, mem_vecinosA_modify1 hlo (d, w) u p]
    tauto

theorem agregar_vertice_isSome_self (g : Grafo) (x : V) :
    (lookupA (g.agregar_vertice x).aristas x).isSome := by
  unfold Grafo.agregar_vertice
  dsimp only
  by_cases h : (lookupA g.aristas x).isSome
  · rwa [if_pos h]
  · rw [if_neg h]
    rw [Option.not_isSome_iff_eq_none] at h
    rw [lookupA_append_none h]
    simp [lookupA]

theorem agregar_vertice_isSome_mono (g : Grafo) (x u : V)
    (h : (lookupA g.aristas u).isSome) :
    (lookupA (g.agregar_vertice x).aristas u).isSome := by
  unfold Grafo.agregar_vertice
  dsimp only
  by_cases hx : (lookupA g.aristas x).isSome
  · rwa [if_pos hx]
  · rw [if_neg hx]
    obtain ⟨l, hl⟩ := Option.isSome_iff_exists.mp h
    rw [lookupA_append_some hl]
    rfl

theorem mem_vecinos_agregar_vertice (g : Grafo) (x u : V) (p : V × ℕ) :
    p ∈ (g.agregar_vertice x).obtener_vecinos u ↔ p ∈ g.obtener_vecinos u := by
  unfold Grafo.agregar_vertice Grafo.obtener_vecinos
  dsimp only
  by_cases h : (lookupA g.aristas x).isSome
  · rw [if_pos h]
  · rw [if_neg h]
    exact mem_vecinosA_addnil g.aristas x u p

/-- Membership in the adjacency lists after `agregar_arista`: the old
neighbours plus the two directions of the new edge. -/
theorem mem_vecinos_agregar_arista (g : Grafo) (o d : V) (w : ℕ) (u : V)
    (p : V × ℕ) :
    p ∈ (g.agregar_arista o d w).obtener_vecinos u ↔
      p ∈ g.obtener_vecinos u ∨ (u = o ∧ p = (d, w)) ∨ (u = d ∧ p = (o, w)) := by
  have hso : (lookupA ((g.agregar_vertice o).agregar_vertice d).aristas o).isSome :=
    agregar_vertice_isSome_mono _ d o (agregar_vertice_isSome_self g o)
  have hsd : (lookupA ((g.agregar_vertice o).agregar_vertice d).aristas d).isSome :=
    agregar_vertice_isSome_self _ d
  obtain ⟨lo, hlo⟩ := Option.isSome_iff_exists.mp hso
  obtain ⟨ld, hld⟩ := Option.isSome_iff_exists.mp hsd
  have base := mem_vecinosA_modify2 hlo hld w u p
  have htrans : p ∈ vecinosA ((g.agregar_vertice o).agregar_vertice d).aristas u ↔
      p ∈ g.obtener_vecinos u := by
    rw [show vecinosA ((g.agregar_vertice o).agregar_vertice d).aristas u =
        ((g.agregar_vertice o).agregar_vertice d).obtener_vecinos u from rfl]
    rw [mem_vecinos_agregar_vertice, mem_vecinos_agregar_vertice]
  unfold Grafo.agregar_arista Grafo.obtener_vecinos
  dsimp only
  rw [show vecinosA (dictModify (dictModify
      ((g.agregar_vertice o).agregar_vertice d).aristas o
      (fun l => l ++ [(d, w)])) d (fun l => l ++ [(o, w)])) u =
    vecinosA (dictModify (dictModify
      ((g.agregar_vertice o).agregar_vertice d).aristas o
      (fun l => l ++ [(d, w)])) d (fun l => l ++ [(o, w)])) u from rfl]
  rw [base, htrans]
  rfl

/-- Symmetry of an adjacency dictionary: every recorded neighbour records the
edge back with the same weight. -/
def SymAdj (A : AdjList) : Prop :=
  ∀ u v : V, ∀ w : ℕ, (v, w) ∈ vecinosA A u → (u, w) ∈ vecinosA A v

theorem symAdj_vacio : SymAdj Grafo.vacio.aristas := by
  intro u v w hm
  simp [Grafo.vacio, vecinosA, lookupA] at hm

theorem symAdj_agregar_vertice {g : Grafo} (h : SymAdj g.aristas) (x : V) :
    SymAdj (g.agregar_vertice x).aristas := by
  intro u v w hm
  have h1 := (mem_vecinos_agregar_vertice g x u (v, w)).mp hm
  exact (mem_vecinos_agregar_vertice g x v (u, w)).mpr (h u v w h1)

theorem symAdj_agregar_arista {g : Grafo} (h : SymAdj g.aristas) (o d : V)
    (w : ℕ) : SymAdj (g.agregar_arista o d w).aristas := by
  intro u v w' hm
  have h1 := (mem_vecinos_agregar_arista g o d w u (v, w')).mp hm
  refine (mem_vecinos_agregar_arista g o d w v (u, w')).mpr ?_
  rcases h1 with h1 | ⟨rfl, he⟩ | ⟨rfl, he⟩
  · exact Or.inl (h u v w' h1)
  · injection he with h2 h3
    subst h2
    subst h3
    exact Or.inr (Or.inr ⟨rfl, rfl⟩)
  · injection he with h2 h3
    subst h2
    subst h3
    exact Or.inr (Or.inl ⟨rfl, rfl⟩)

theorem lookupA_isSome_iff_mem {α : Type} (A : List (V × α)) (k : V) :
    (lookupA A k).isSome ↔ k ∈ A.map Prod.fst := by
  induction A with
  | nil => simp [lookupA]
  | cons p rest ih =>
    obtain ⟨k', v'⟩ := p
    simp only [lookupA, List.map_cons, List.mem_cons]
    by_cases hk : k' = k
    · simp [hk]
    · rw [if_neg hk]
      simp only [ih]
      constructor
      · exact Or.inr
      · rintro (he | hm)
        · exact absurd he.symm hk
        · exact hm

/-- The class invariant of `RedHospitalaria`: `self.nodos` and
`self.adyacencia` always hold exactly the same keys (every constructor and
mutator of the class maintains this). -/
def RedHospitalaria.Consistente (red : RedHospitalaria) : Prop :=
  red.nodos.map Prod.fst = red.adyacencia.map Prod.fst

instance (red : RedHospitalaria) : Decidable red.Consistente := by
  unfold RedHospitalaria.Consistente; infer_instance

theorem consistente_vacia : RedHospitalaria.vacia.Consistente := rfl

theorem consistente_agregar_lugar {red : RedHospitalaria} (h : red.Consistente)
    (x : V) (t i : String) : (red.agregar_lugar x t i).Consistente := by
  unfold RedHospitalaria.agregar_lugar
  by_cases hx : (lookupA red.nodos x).isSome
  · rwa [if_pos hx]
  · rw [if_neg hx]
    unfold RedHospitalaria.Consistente at h ⊢
    simp only [List.map_append, List.map_cons, List.map_nil, h]

theorem agregar_lugar_nodos_isSome_self (red : RedHospitalaria) (x : V)
    (t i : String) : (lookupA (red.agregar_lugar x t i).nodos x).isSome := by
  unfold RedHospitalaria.agregar_lugar
  by_cases hx : (lookupA red.nodos x).isSome
  · rwa [if_pos hx]
  · rw [if_neg hx]
    rw [Option.not_isSome_iff_eq_none] at hx
    dsimp only
    rw [lookupA_append_none hx]
    simp [lookupA]

theorem agregar_lugar_nodos_isSome_mono (red : RedHospitalaria) (x u : V)
    (t i : String) (h : (lookupA red.nodos u).isSome) :
    (lookupA (red.agregar_lugar x t i).nodos u).isSome := by
  unfold RedHospitalaria.agregar_lugar
  by_cases hx : (lookupA red.nodos x).isSome
  · rwa [if_pos hx]
  · rw [if_neg hx]
    obtain ⟨l, hl⟩ := Option.isSome_iff_exists.mp h
    dsimp only
    rw [lookupA_append_some hl]
    rfl

theorem mem_vecinos_agregar_lugar (red : RedHospitalaria) (x : V)
    (t i : String) (u : V) (p : V × ℕ) :
    p ∈ (red.agregar_lugar x t i).vecinos u ↔ p ∈ red.vecinos u := by
  unfold RedHospitalaria.agregar_lugar RedHospitalaria.vecinos
  by_cases hx : (lookupA red.nodos x).isSome
  · rw [if_pos hx]
  · rw [if_neg hx]
    exact mem_vecinosA_addnil red.adyacencia x u p

theorem symAdj_vacia : SymAdj RedHospitalaria.vacia.adyacencia := by
  intro u v w hm
  simp [RedHospitalaria.vacia, vecinosA, lookupA] at hm

theorem symAdj_agregar_lugar {red : RedHospitalaria} (h : SymAdj red.adyacencia)
    (x : V) (t i : String) : SymAdj (red.agregar_lugar x t i).adyacencia := by
  intro u v w hm
  have h1 := (mem_vecinos_agregar_lugar red x t i u (v, w)).mp hm
  exact (mem_vecinos_agregar_lugar red x t i v (u, w)).mpr (h u v w h1)

theorem dictModify_map_fst {α : Type} (A : List (V × α)) (k : V) (f : α → α) :
    (dictModify A k f).map Prod.fst = A.map Prod.fst := by
  induction A with
  | nil => rfl
  | cons p rest ih =>
    obtain ⟨k', v'⟩ := p
    simp only [dictModify]
    by_cases hk : k' = k
    · rw [if_pos hk]
      simp only [List.map_cons]
    · rw [if_neg hk]
      simp only [List.map_cons, ih]

theorem agregar_ruta_setup {red : RedHospitalaria} (hcons : red.Consistente)
    (a b : V) :
    ∃ la lb,
      lookupA ((red.agregar_lugar a "colonia" "").agregar_lugar
        b "colonia" "").adyacencia a = some la ∧
      lookupA ((red.agregar_lugar a "colonia" "").agregar_lugar
        b "colonia" "").adyacencia b = some lb ∧
      (∀ p : V × ℕ, p ∈ la ↔ p ∈ red.vecinos a) ∧
      (∀ p : V × ℕ, p ∈ lb ↔ p ∈ red.vecinos b) := by
  have hc2 : ((red.agregar_lugar a "colonia" "").agregar_lugar
      b "colonia" "").Consistente :=
    consistente_agregar_lugar (consistente_agregar_lugar hcons a "colonia" "")
      b "colonia" ""
  have hnda : (lookupA ((red.agregar_lugar a "colonia" "").agregar_lugar
      b "colonia" "").nodos a).isSome :=
    agregar_lugar_nodos_isSome_mono _ b a "colonia" ""
      (agregar_lugar_nodos_isSome_self red a "colonia" "")
  have hndb : (lookupA ((red.agregar_lugar a "colonia" "").agregar_lugar
      b "colonia" "").nodos b).isSome :=
    agregar_lugar_nodos_isSome_self _ b "colonia" ""
  have hsa : (lookupA ((red.agregar_lugar a "colonia" "").agregar_lugar
      b "colonia" "").adyacencia a).isSome := by
    rw [lookupA_isSome_iff_mem] at hnda ⊢
    rwa [← hc2]
  have hsb : (lookupA ((red.agregar_lugar a "colonia" "").agregar_lugar
      b "colonia" "").adyacencia b).isSome := by
    rw [lookupA_isSome_iff_mem] at hndb ⊢
    rwa [← hc2]
  obtain ⟨la, hla⟩ := Option.isSome_iff_exists.mp hsa
  obtain ⟨lb, hlb⟩ := Option.isSome_iff_exists.mp hsb
  refine ⟨la, lb, hla, hlb, ?_, ?_⟩
  · intro p
    have h1 := mem_vecinos_agregar_lugar (red.agregar_lugar a "colonia" "")
      b "colonia" "" a p
    have h2 := mem_vecinos_agregar_lugar red a "colonia" "" a p
    rw [RedHospitalaria.vecinos, vecinosA, hla] at h1
    simp only [Option.getD_some] at h1
    exact h1.trans h2
  · intro p
    have h1 := mem_vecinos_agregar_lugar (red.agregar_lugar a "colonia" "")
      b "colonia" "" b p
    have h2 := mem_vecinos_agregar_lugar red a "colonia" "" b p
    rw [RedHospitalaria.vecinos, vecinosA, hlb] at h1
    simp only [Option.getD_some] at h1
    exact h1.trans h2

theorem agregar_ruta_adds {red : RedHospitalaria} (hcons : red.Consistente)
    (a b : V) (w : ℕ)
    (hnb : ∀ p ∈ red.vecinos a, p.1 ≠ b) (hna : ∀ p ∈ red.vecinos b, p.1 ≠ a) :
    (b, w) ∈ (red.agregar_ruta a b w).vecinos a ∧
      (a, w) ∈ (red.agregar_ruta a b w).vecinos b := by
  obtain ⟨la, lb, hla, hlb, hma, hmb⟩ := agregar_ruta_setup hcons a b
  have hG1 : ¬ ((vecinosA ((red.agregar_lugar a "colonia" "").agregar_lugar
      b "colonia" "").adyacencia a).any (fun p => p.1 == b) = true) := by
    rw [List.any_eq_true]
    rintro ⟨p, hp, hpb⟩
    rw [vecinosA, hla, Option.getD_some] at hp
    exact hnb p ((hma p).mp hp) (by simpa using hpb)
  simp only [RedHospitalaria.agregar_ruta, RedHospitalaria.vecinos]
  rw [if_neg hG1]
  by_cases hab : a = b
  · subst hab
    have hady1 : lookupA (dictModify ((red.agregar_lugar a "colonia" "").agregar_lugar
        a "colonia" "").adyacencia a (fun l => l ++ [(a, w)])) a =
        some (la ++ [(a, w)]) := lookupA_dictModify_self hla _
    have hG2 : (vecinosA (dictModify ((red.agregar_lugar a "colonia" "").agregar_lugar
        a "colonia" "").adyacencia a (fun l => l ++ [(a, w)])) a).any
        (fun p => p.1 == a) = true := by
      rw [List.any_eq_true]
      refine ⟨(a, w), ?_, by simp⟩
      rw [vecinosA, hady1, Option.getD_some]
      simp
    rw [if_pos hG2]
    constructor <;> (rw [vecinosA, hady1, Option.getD_some]; simp)
  · have hady1b : lookupA (dictModify ((red.agregar_lugar a "colonia" "").agregar_lugar
        b "colonia" "").adyacencia a (fun l => l ++ [(b, w)])) b = some lb := by
      rw [lookupA_dictModify_ne _ _ _ _ (fun hc => hab hc.symm)]
      exact hlb
    have hG2 : ¬ ((vecinosA (dictModify ((red.agregar_lugar a "colonia" "").agregar_lugar
        b "colonia" "").adyacencia a (fun l => l ++ [(b, w)])) b).any
        (fun p => p.1 == a) = true) := by
      rw [List.any_eq_true]
      rintro ⟨p, hp, hpa⟩
      rw [vecinosA, hady1b, Option.getD_some] at hp
      exact hna p ((hmb p).mp hp) (by simpa using hpa)
    rw [if_neg hG2]
    have hady1a : lookupA (dictModify ((red.agregar_lugar a "colonia" "").agregar_lugar
        b "colonia" "").adyacencia a (fun l => l ++ [(b, w)])) a =
        some (la ++ [(b, w)]) := lookupA_dictModify_self hla _
    constructor
    · have hfa : lookupA (dictModify (dictModify ((red.agregar_lugar a "colonia"
          "").agregar_lugar b "colonia" "").adyacencia a (fun l => l ++ [(b, w)])) b
          (fun l => l ++ [(a, w)])) a = some (la ++ [(b, w)]) := by
        rw [lookupA_dictModify_ne _ _ _ _ hab]
        exact hady1a
      rw [vecinosA, hfa, Option.getD_some]
      simp
    · have hfb : lookupA (dictModify (dictModify ((red.agregar_lugar a "colonia"
          "").agregar_lugar b "colonia" "").adyacencia a (fun l => l ++ [(b, w)])) b
          (fun l => l ++ [(a, w)])) b = some (lb ++ [(a, w)]) :=
        lookupA_dictModify_self hady1b _
      rw [vecinosA, hfb, Option.getD_some]
      simp

/-- When both directions are already present, `agregar_ruta` only runs the two
(no-op or node-adding) `agregar_lugar` calls: both guards fire. -/
theorem agregar_ruta_ady_already {red : RedHospitalaria} (hcons : red.Consistente)
    (a b : V) (w : ℕ)
    (hab : ∃ q ∈ red.vecinos a, q.1 = b) (hba : ∃ q ∈ red.vecinos b, q.1 = a) :
    red.agregar_ruta a b w =
      (red.agregar_lugar a "colonia" "").agregar_lugar b "colonia" "" := by
  obtain ⟨la, lb, hla, hlb, hma, hmb⟩ := agregar_ruta_setup hcons a b
  have hG1 : (vecinosA ((red.agregar_lugar a "colonia" "").agregar_lugar
      b "colonia" "").adyacencia a).any (fun p => p.1 == b) = true := by
    obtain ⟨q, hq, hq1⟩ := hab
    rw [List.any_eq_true]
    refine ⟨q, ?_, by simpa using hq1⟩
    rw [vecinosA, hla, Option.getD_some]
    exact (hma q).mpr hq
  have hG2 : (vecinosA ((red.agregar_lugar a "colonia" "").agregar_lugar
      b "colonia" "").adyacencia b).any (fun p => p.1 == a) = true := by
    obtain ⟨q, hq, hq1⟩ := hba
    rw [List.any_eq_true]
    refine ⟨q, ?_, by simpa using hq1⟩
    rw [vecinosA, hlb, Option.getD_some]
    exact (hmb q).mpr hq
  simp only [RedHospitalaria.agregar_ruta]
  rw [if_pos hG1, if_pos hG2]

/-- When neither direction is present and the endpoints differ, both appends
run. -/
theorem agregar_ruta_ady_new {red : RedHospitalaria} (hcons : red.Consistente)
    (a b : V) (w : ℕ) (hab : a ≠ b)
    (hnb : ∀ p ∈ red.vecinos a, p.1 ≠ b) (hna : ∀ p ∈ red.vecinos b, p.1 ≠ a) :
    (red.agregar_ruta a b w).adyacencia =
      dictModify (dictModify ((red.agregar_lugar a "colonia" "").agregar_lugar
        b "colonia" "").adyacencia a (fun l => l ++ [(b, w)])) b
        (fun l => l ++ [(a, w)]) := by
  obtain ⟨la, lb, hla, hlb, hma, hmb⟩ := agregar_ruta_setup hcons a b
  have hG1 : ¬ ((vecinosA ((red.agregar_lugar a "colonia" "").agregar_lugar
      b "colonia" "").adyacencia a).any (fun p => p.1 == b) = true) := by
    rw [List.any_eq_true]
    rintro ⟨p, hp, hpb⟩
    rw [vecinosA, hla, Option.getD_some] at hp
    exact hnb p ((hma p).mp hp) (by simpa using hpb)
  have hady1b : lookupA (dictModify ((red.agregar_lugar a "colonia" "").agregar_lugar
      b "colonia" "").adyacencia a (fun l => l ++ [(b, w)])) b = some lb := by
    rw [lookupA_dictModify_ne _ _ _ _ (fun hc => hab hc.symm)]
    exact hlb
  have hG2 : ¬ ((vecinosA (dictModify ((red.agregar_lugar a "colonia" "").agregar_lugar
      b "colonia" "").adyacencia a (fun l => l ++ [(b, w)])) b).any
      (fun p => p.1 == a) = true) := by
    rw [List.any_eq_true]
    rintro ⟨p, hp, hpa⟩
    rw [vecinosA, hady1b, Option.getD_some] at hp
    exact hna p ((hmb p).mp hp) (by simpa using hpa)
  simp only [RedHospitalaria.agregar_ruta]
  rw [if_neg hG1, if_neg hG2]

/-- A self-loop insert when no self-loop is present: the first append already
satisfies the second guard, so exactly one `(a, w)` entry is appended. -/
theorem agregar_ruta_ady_self {red : RedHospitalaria} (hcons : red.Consistente)
    (a : V) (w : ℕ) (hnb : ∀ p ∈ red.vecinos a, p.1 ≠ a) :
    (red.agregar_ruta a a w).adyacencia =
      dictModify ((red.agregar_lugar a "colonia" "").agregar_lugar
        a "colonia" "").adyacencia a (fun l => l ++ [(a, w)]) := by
  obtain ⟨la, lb, hla, hlb, hma, hmb⟩ := agregar_ruta_setup hcons a a
  have hG1 : ¬ ((vecinosA ((red.agregar_lugar a "colonia" "").agregar_lugar
      a "colonia" "").adyacencia a).any (fun p => p.1 == a) = true) := by
    rw [List.any_eq_true]
    rintro ⟨p, hp, hpb⟩
    rw [vecinosA, hla, Option.getD_some] at hp
    exact hnb p ((hma p).mp hp) (by simpa using hpb)
  have hady1 : lookupA (dictModify ((red.agregar_lugar a "colonia" "").agregar_lugar
      a "colonia" "").adyacencia a (fun l => l ++ [(a, w)])) a =
      some (la ++ [(a, w)]) := lookupA_dictModify_self hla _
  have hG2 : (vecinosA (dictModify ((red.agregar_lugar a "colonia" "").agregar_lugar
      a "colonia" "").adyacencia a (fun l => l ++ [(a, w)])) a).any
      (fun p => p.1 == a) = true := by
    rw [List.any_eq_true]
    refine ⟨(a, w), ?_, by simp⟩
    rw [vecinosA, hady1, Option.getD_some]
    simp
  simp only [RedHospitalaria.agregar_ruta]
  rw [if_neg hG1, if_pos hG2]

/-- `agregar_ruta` keeps the node/adjacency key sets equal. -/
theorem consistente_agregar_ruta {red : RedHospitalaria} (h : red.Consistente)
    (a b : V) (w : ℕ) : (red.agregar_ruta a b w).Consistente := by
  have h2 : ((red.agregar_lugar a "colonia" "").agregar_lugar
      b "colonia" "").Consistente :=
    consistente_agregar_lugar (consistente_agregar_lugar h a "colonia" "") b "colonia" ""
  unfold RedHospitalaria.Consistente at h2 ⊢
  unfold RedHospitalaria.agregar_ruta
  dsimp only
  split <;> split <;> (try simp only [dictModify_map_fst]) <;> exact h2

/-- `agregar_ruta` preserves symmetry of the adjacency dictionary. -/
theorem symAdj_agregar_ruta {red : RedHospitalaria} (hcons : red.Consistente)
    (hsym : SymAdj red.adyacencia) (a b : V) (w : ℕ) :
    SymAdj (red.agregar_ruta a b w).adyacencia := by
  obtain ⟨la, lb, hla, hlb, hma, hmb⟩ := agregar_ruta_setup hcons a b
  have hsym2 : SymAdj ((red.agregar_lugar a "colonia" "").agregar_lugar
      b "colonia" "").adyacencia :=
    symAdj_agregar_lugar (symAdj_agregar_lugar hsym a "colonia" "") b "colonia" ""
  by_cases hEx : ∃ q ∈ red.vecinos a, q.1 = b
  · have hba : ∃ q ∈ red.vecinos b, q.1 = a := by
      obtain ⟨⟨q1, q2⟩, hq, hq1⟩ := hEx
      dsimp only at hq1
      subst hq1
      exact ⟨(a, q2), hsym a q1 q2 hq, rfl⟩
    rw [agregar_ruta_ady_already hcons a b w hEx hba]
    exact hsym2
  · have hnb : ∀ p ∈ red.vecinos a, p.1 ≠ b := fun p hp hc => hEx ⟨p, hp, hc⟩
    have hna : ∀ p ∈ red.vecinos b, p.1 ≠ a := by
      rintro ⟨p1, p2⟩ hp hc
      dsimp only at hc
      subst hc
      exact hEx ⟨(b, p2), hsym b p1 p2 hp, rfl⟩
    by_cases hab : a = b
    · subst hab
      rw [agregar_ruta_ady_self hcons a w hnb]
      intro u v w' hm
      rw [mem_vecinosA_modify1 hla (a, w) u (v, w')] at hm
      rw [mem_vecinosA_modify1 hla (a, w) v (u, w')]
      rcases hm with hm | ⟨hu, hp⟩
      · exact Or.inl (hsym2 u v w' hm)
      · injection hp with h1 h2
        subst hu; subst h1; subst h2
        exact Or.inr ⟨rfl, rfl⟩
    · rw [agregar_ruta_ady_new hcons a b w hab hnb hna]
      intro u v w' hm
      rw [mem_vecinosA_modify2 hla hlb w u (v, w')] at hm
      rw [mem_vecinosA_modify2 hla hlb w v (u, w')]
      rcases hm with hm | ⟨hu, hp⟩ | ⟨hu, hp⟩
      · exact Or.inl (hsym2 u v w' hm)
      · injection hp with h1 h2
        subst hu; subst h1; subst h2
        exact Or.inr (Or.inr ⟨rfl, rfl⟩)
      · injection hp with h1 h2
        subst hu; subst h1; subst h2
        exact Or.inr (Or.inl ⟨rfl, rfl⟩)

/-- C10: in the hospital variant, calling `agregar_ruta a b w'` when `a` and
`b` are already adjacent (in both directions, as every route insert
establishes) leaves the whole network unchanged — no entry is added, the
stored weight stays, and the new weight `w'` is silently discarded. -/
theorem agregar_ruta_noop_when_adjacent (red : RedHospitalaria) (a b : V)
    (w' : ℕ) (hcons : red.Consistente)
    (hab : ∃ q ∈ red.vecinos a, q.1 = b) (hba : ∃ q ∈ red.vecinos b, q.1 = a) :
    red.agregar_ruta a b w' = red := by
  have hc' : red.nodos.map Prod.fst = red.adyacencia.map Prod.fst := hcons
  have hNod : ∀ u : V, ∀ q : V × ℕ, q ∈ red.vecinos u →
      (lookupA red.nodos u).isSome := by
    intro u q hq
    rw [lookupA_isSome_iff_mem, hc', ← lookupA_isSome_iff_mem]
    rw [RedHospitalaria.vecinos, vecinosA] at hq
    cases hl : lookupA red.adyacencia u with
    | none => simp [hl] at hq
    | some l => rfl
  obtain ⟨qa, hqa, hq1⟩ := hab
  obtain ⟨qb, hqb, hq2⟩ := hba
  have hNodA : (lookupA red.nodos a).isSome := hNod a qa hqa
  have hNodB : (lookupA red.nodos b).isSome := hNod b qb hqb
  have h1 : red.agregar_lugar a "colonia" "" = red := by
    unfold RedHospitalaria.agregar_lugar
    rw [if_pos hNodA]
  have h2 : (red.agregar_lugar a "colonia" "").agregar_lugar b "colonia" "" = red := by
    rw [h1]
    unfold RedHospitalaria.agregar_lugar
    rw [if_pos hNodB]
  have h3 := agregar_ruta_ady_already hcons a b w' ⟨qa, hqa, hq1⟩ ⟨qb, hqb, hq2⟩
  rw [h2] at h3
  exact h3

/-- Witness for C10 on a concrete network: re-adding the `A`–`B` route with a
smaller weight changes nothing. -/
theorem agregar_ruta_noop_when_adjacent_witness :
    (RedHospitalaria.vacia.agregar_ruta "A" "B" 5).agregar_ruta "A" "B" 2 =
      RedHospitalaria.vacia.agregar_ruta "A" "B" 5 :=
  agregar_ruta_noop_when_adjacent _ "A" "B" 2 (by decide) (by decide) (by decide)

/-- C8 counterexample: in the hospital variant, a second `agregar_ruta`
between already-adjacent places is silently dropped, so immediately after
`agregar_ruta("A", "B", 2)` the neighbour list of `"A"` does not contain
`("B", 2)`. -/
theorem addEdge_contains_counterexample :
    ("B", 2) ∉ ((RedHospitalaria.vacia.agregar_ruta "A" "B" 5).agregar_ruta
      "A" "B" 2).vecinos "A" := by decide

/-- C8 (amended): `agregar_arista a b w` in the base variant always puts
`(b, w)` into the neighbours of `a` and `(a, w)` into the neighbours of `b`;
the hospital variant's `agregar_ruta` does so only when the corresponding
direction is not already present (otherwise the insert is dropped, see the
counterexample); and in both variants every graph-building operation
preserves symmetry of the adjacency lists. -/
theorem addEdge_symmetry (g : Grafo) (red : RedHospitalaria) (a b : V) (w : ℕ)
    (t i : String)
    (hsymG : SymAdj g.aristas) (hcons : red.Consistente)
    (hsymR : SymAdj red.adyacencia)
    (hnb : ∀ p ∈ red.vecinos a, p.1 ≠ b) (hna : ∀ p ∈ red.vecinos b, p.1 ≠ a) :
    ((b, w) ∈ (g.agregar_arista a b w).obtener_vecinos a ∧
      (a, w) ∈ (g.agregar_arista a b w).obtener_vecinos b) ∧
    ((b, w) ∈ (red.agregar_ruta a b w).vecinos a ∧
      (a, w) ∈ (red.agregar_ruta a b w).vecinos b) ∧
    SymAdj (g.agregar_vertice a).aristas ∧
    SymAdj (g.agregar_arista a b w).aristas ∧
    SymAdj (red.agregar_lugar a t i).adyacencia ∧
    SymAdj (red.agregar_ruta a b w).adyacencia := by
  refine ⟨⟨?_, ?_⟩, agregar_ruta_adds hcons a b w hnb hna,
    symAdj_agregar_vertice hsymG a,
    symAdj_agregar_arista hsymG a b w,
    symAdj_agregar_lugar hsymR a t i,
    symAdj_agregar_ruta hcons hsymR a b w⟩
  · rw [mem_vecinos_agregar_arista]
    exact Or.inr (Or.inl ⟨rfl, rfl⟩)
  · rw [mem_vecinos_agregar_arista]
    exact Or.inr (Or.inr ⟨rfl, rfl⟩)

/-- Witness for C8 on concrete empty graphs and a fresh edge. -/
theorem addEdge_symmetry_witness :
    (("B", 7) ∈ (Grafo.vacio.agregar_arista "A" "B" 7).obtener_vecinos "A" ∧
      ("A", 7) ∈ (Grafo.vacio.agregar_arista "A" "B" 7).obtener_vecinos "B") ∧
    (("B", 7) ∈ (RedHospitalaria.vacia.agregar_ruta "A" "B" 7).vecinos "A" ∧
      ("A", 7) ∈ (RedHospitalaria.vacia.agregar_ruta "A" "B" 7).vecinos "B") ∧
    SymAdj (Grafo.vacio.agregar_vertice "A").aristas ∧
    SymAdj (Grafo.vacio.agregar_arista "A" "B" 7).aristas ∧
    SymAdj (RedHospitalaria.vacia.agregar_lugar "A" "hospital" "x").adyacencia ∧
    SymAdj (RedHospitalaria.vacia.agregar_ruta "A" "B" 7).adyacencia :=
  addEdge_symmetry Grafo.vacio RedHospitalaria.vacia "A" "B" 7 "hospital" "x"
    symAdj_vacio (by decide) symAdj_vacia (by decide) (by decide)

theorem pairLe_refl (a : ℕ × V) : pairLe a a := entryLe_refl a

theorem pairLe_trans {a b c : ℕ × V} (h1 : pairLe a b) (h2 : pairLe b c) :
    pairLe a c := entryLe_trans h1 h2

theorem pairLe_total (a b : ℕ × V) : pairLe a b ∨ pairLe b a := entryLe_total a b

theorem insertLex_perm (x : ℕ × V) (l : List (ℕ × V)) :
    List.Perm (insertLex x l) (x :: l) := by
  induction l with
  | nil => exact List.Perm.refl [x]
  | cons y ys ih =>
    unfold insertLex
    by_cases h : pairLe x y
    · rw [if_pos h]
    · rw [if_neg h]
      exact (ih.cons y).trans (List.Perm.swap x y ys)

theorem sortLex_perm (l : List (ℕ × V)) : List.Perm (sortLex l) l := by
  induction l with
  | nil => exact List.Perm.refl []
  | cons x xs ih => exact (insertLex_perm x (sortLex xs)).trans (ih.cons x)

theorem insertLex_sorted (x : ℕ × V) {l : List (ℕ × V)}
    (hl : l.Pairwise pairLe) : (insertLex x l).Pairwise pairLe := by
  induction l with
  | nil => exact List.pairwise_singleton pairLe x
  | cons y ys ih =>
    rw [List.pairwise_cons] at hl
    unfold insertLex
    by_cases h : pairLe x y
    · rw [if_pos h]
      refine List.Pairwise.cons ?_ (List.Pairwise.cons hl.1 hl.2)
      intro z hz
      rcases List.mem_cons.mp hz with rfl | hz'
      · exact h
      · exact pairLe_trans h (hl.1 z hz')
    · rw [if_neg h]
      have hyx : pairLe y x := (pairLe_total x y).resolve_left h
      refine List.Pairwise.cons ?_ (ih hl.2)
      intro z hz
      have hz2 : z ∈ x :: ys := (insertLex_perm x ys).mem_iff.mp hz
      rcases List.mem_cons.mp hz2 with rfl | hz'
      · exact hyx
      · exact hl.1 z hz'

theorem sortLex_sorted (l : List (ℕ × V)) : (sortLex l).Pairwise pairLe := by
  induction l with
  | nil => exact List.Pairwise.nil
  | cons x xs ih => exact insertLex_sorted x ih

/-- Membership in the reachable-hospitals comprehension. -/
theorem mem_hospitalesAlcanzables (red : RedHospitalaria) (dist : V → ℕ∞)
    (n : ℕ) (h : V) :
    (n, h) ∈ hospitalesAlcanzables red dist ↔
      h ∈ red.hospitales ∧ dist h = (n : ℕ∞) := by
  unfold hospitalesAlcanzables
  rw [List.mem_map]
  constructor
  · rintro ⟨x, hx, heq⟩
    injection heq with he1 he2
    subst he2
    rw [List.mem_filter] at hx
    refine ⟨hx.1, ?_⟩
    have hlt : dist x < ⊤ := of_decide_eq_true hx.2
    rw [← he1]
    exact (ENat.coe_toNat hlt.ne).symm
  · rintro ⟨hmem, hdist⟩
    refine ⟨h, List.mem_filter.mpr ⟨hmem, ?_⟩, ?_⟩
    · rw [hdist]
      simp
    · rw [hdist]
      simp

/-- C9: when `menu_calcular`'s guards pass (some hospital exists, at least
two places, valid origin), the sorted ranking contains exactly the pairs
`(n, h)` with `h` a hospital at finite Dijkstra distance `n`; it is sorted
ascending by time with ties broken by name; when it is non-empty the result
is the recommendation of its first element, which is minimal; when no
hospital is reachable the result is the dedicated `ningunoAlcanzable`
outcome; and the `sinHospitales` outcome is never produced. -/
theorem ranking_hospitales_correct (red : RedHospitalaria) (origen : V)
    (h1 : red.hospitales ≠ []) (h2 : ¬ red.nodos.length < 2)
    (h3 : (lookupA red.nodos origen).isSome) :
    (∀ n : ℕ, ∀ h : V,
      (n, h) ∈ sortLex (hospitalesAlcanzables red (dijkstraHosp red origen).1) ↔
        h ∈ red.hospitales ∧ (dijkstraHosp red origen).1 h = (n : ℕ∞)) ∧
    (sortLex (hospitalesAlcanzables red (dijkstraHosp red origen).1)).Pairwise
      pairLe ∧
    (∀ t : ℕ, ∀ h : V, ∀ rest : List (ℕ × V),
      sortLex (hospitalesAlcanzables red (dijkstraHosp red origen).1) =
          (t, h) :: rest →
        menu_calcular red origen =
          ResultadoUrgencia.recomendacion ((t, h) :: rest) t h ∧
        ∀ p ∈ (t, h) :: rest, pairLe (t, h) p) ∧
    (hospitalesAlcanzables red (dijkstraHosp red origen).1 = [] →
      menu_calcular red origen = ResultadoUrgencia.ningunoAlcanzable) ∧
    menu_calcular red origen ≠ ResultadoUrgencia.sinHospitales := by
  have h3' : ¬ ((lookupA red.nodos origen).isNone = true) := by
    intro hc
    rw [Option.isNone_iff_eq_none] at hc
    rw [hc] at h3
    exact absurd h3 (by decide)
  refine ⟨?_, sortLex_sorted _, ?_, ?_, ?_⟩
  · intro n h
    exact ((sortLex_perm _).mem_iff).trans
      (mem_hospitalesAlcanzables red (dijkstraHosp red origen).1 n h)
  · intro t h rest heq
    constructor
    · have halc : hospitalesAlcanzables red (dijkstraHosp red origen).1 ≠ [] := by
        intro hc
        rw [hc] at heq
        exact List.noConfusion heq
      simp only [menu_calcular]
      rw [if_neg h1, if_neg h2, if_neg h3', if_neg halc, heq]
    · have hs := sortLex_sorted (hospitalesAlcanzables red (dijkstraHosp red origen).1)
      rw [heq, List.pairwise_cons] at hs
      intro p hp
      rcases List.mem_cons.mp hp with rfl | hp'
      · exact pairLe_refl _
      · exact hs.1 p hp'
  · intro halc
    simp only [menu_calcular]
    rw [if_neg h1, if_neg h2, if_neg h3', if_pos halc]
  · simp only [menu_calcular]
    rw [if_neg h1, if_neg h2, if_neg h3']
    split
    · intro hc
      exact ResultadoUrgencia.noConfusion hc
    · split
      · intro hc
        exact ResultadoUrgencia.noConfusion hc
      · intro hc
        exact ResultadoUrgencia.noConfusion hc

/-- Witness for C9 on the concrete network `redEjemplo` from origin `"A"`. -/
theorem ranking_hospitales_correct_witness :
    (∀ n : ℕ, ∀ h : V,
      (n, h) ∈ sortLex (hospitalesAlcanzables redEjemplo
          (dijkstraHosp redEjemplo "A").1) ↔
        h ∈ redEjemplo.hospitales ∧
          (dijkstraHosp redEjemplo "A").1 h = (n : ℕ∞)) ∧
    (sortLex (hospitalesAlcanzables redEjemplo
      (dijkstraHosp redEjemplo "A").1)).Pairwise pairLe ∧
    (∀ t : ℕ, ∀ h : V, ∀ rest : List (ℕ × V),
      sortLex (hospitalesAlcanzables redEjemplo
          (dijkstraHosp redEjemplo "A").1) = (t, h) :: rest →
        menu_calcular redEjemplo "A" =
          ResultadoUrgencia.recomendacion ((t, h) :: rest) t h ∧
        ∀ p ∈ (t, h) :: rest, pairLe (t, h) p) ∧
    (hospitalesAlcanzables redEjemplo (dijkstraHosp redEjemplo "A").1 = [] →
      menu_calcular redEjemplo "A" = ResultadoUrgencia.ningunoAlcanzable) ∧
    menu_calcular redEjemplo "A" ≠ ResultadoUrgencia.sinHospitales :=
  ranking_hospitales_correct redEjemplo "A" (by decide) (by decide) (by decide)
